import Mathlib

/-!
Verification of the trace-based database-internals visualization engine:
a shallow embedding in Lean 4 of the B-Tree producer, the MVCC producer,
the lexer/parser producer and the generic playback engine, together with
proofs and refutations of the specified properties.
-/

namespace BTreeSpec

/--
A B-Tree node, mirroring `BTreeNode` (`Keys`, `Children`, `IsLeaf`).
The Go code stores nodes in a map keyed by generated node ids and links
children by id (with a non-owning `Parent` back-reference); the embedding
represents the id indirection by direct substructure, which preserves the
keys, key counts, child arities and depths that the claims talk about.
-/
inductive BNode where
  | node (keys : List Int) (children : List BNode) (isLeaf : Bool)

instance : Inhabited BNode := ⟨.node [] [] true⟩

def BNode.keys : BNode → List Int
  | .node ks _ _ => ks

def BNode.children : BNode → List BNode
  | .node _ cs _ => cs

def BNode.isLeaf : BNode → Bool
  | .node _ _ lf => lf

/-- Number of keys resident in a node (`len(node.Keys)`). -/
def keyCount (n : BNode) : Nat := n.keys.length

/-- The tree structure, mirroring `BTree` (`Order`, `RootID`, `Nodes`).
`RootID == ""` is represented by `root = none`. -/
structure BTree where
  order : Nat
  root : Option BNode

/-- Mirrors `NewBTree`: an order below 3 is clamped to 3. -/
def NewBTree (order : Nat) : BTree :=
  { order := if order < 3 then 3 else order, root := none }

/-- Mirrors the Go helper `insertAt` (shift right, write at `index`). -/
def insertAt (slice : List Int) (index : Nat) (value : Int) : List Int :=
  slice.take index ++ value :: slice.drop index

/-- Mirrors the Go helper `insertAtStr` for child lists. -/
def insertAtChild (slice : List BNode) (index : Nat) (value : BNode) : List BNode :=
  slice.take index ++ value :: slice.drop index

/-- Mirrors the Go helper `removeAt`. -/
def removeAt (slice : List Int) (index : Nat) : List Int :=
  slice.take index ++ slice.drop (index + 1)

/-- Mirrors the Go helper `removeAtStr` for child lists. -/
def removeAtChild (slice : List BNode) (index : Nat) : List BNode :=
  slice.take index ++ slice.drop (index + 1)

/--
Mirrors the descending scan in `insertNonFull`
(`i := len(keys)-1; for i >= 0 && key < keys[i] { i-- }; use i+1`):
the resulting position is the length of the list minus the length of its
maximal suffix of keys strictly greater than `key`.
-/
def scanPos (keys : List Int) (key : Int) : Nat :=
  keys.length - (keys.reverse.takeWhile (fun k => decide (key < k))).length

/-- Size measure used as recursion fuel for functions that, in the Go
source, recurse through the node map along child ids. -/
def bsize : BNode → Nat
  | .node _ cs _ => 1 + bsizeList cs
where
  bsizeList : List BNode → Nat
    | [] => 0
    | c :: cs => bsize c + bsizeList cs

/--
Mirrors `splitChild(parentID, childIndex)`: split the full child at
`childIndex`, keep the first `mid` keys in place, promote the median into
the parent and move the upper keys (and, for internal nodes, the upper
children) into a fresh right sibling inserted at `childIndex+1`.
The out-of-bounds branch is unreachable in the source (the index is
always valid) and returns the parent unchanged.
-/
def splitChild (order : Nat) (parent : BNode) (childIndex : Nat) : BNode :=
  match parent with
  | .node pkeys pchildren pleaf =>
    match pchildren.getD childIndex default with
    | .node ckeys cchildren cleaf =>
      let mid := (order - 1) / 2
      let medianKey := ckeys.getD mid 0
      let newNode : BNode :=
        .node (ckeys.drop (mid + 1)) (if cleaf then [] else cchildren.drop (mid + 1)) cleaf
      let fullChild : BNode :=
        .node (ckeys.take mid) (if cleaf then cchildren else cchildren.take (mid + 1)) cleaf
      if childIndex < pchildren.length then
        .node (insertAt pkeys childIndex medianKey)
              (insertAtChild (pchildren.set childIndex fullChild) (childIndex + 1) newNode)
              pleaf
      else
        .node pkeys pchildren pleaf

/--
Mirrors `insertNonFull(nodeID, key)`.  `fuel` bounds the recursion depth;
the Go recursion terminates because every call descends into a child of
the current node, so any fuel of at least `bsize` of the node suffices
(the zero-fuel branch is unreachable at the call sites below).
-/
def insertNonFull (order : Nat) : Nat → BNode → Int → BNode
  | 0, t, _ => t
  | fuel + 1, .node ks cs lf, key =>
    if lf then
      .node (insertAt ks (scanPos ks key) key) cs lf
    else
      let i := scanPos ks key
      let child := cs.getD i default
      if keyCount child = order - 1 then
        match splitChild order (.node ks cs lf) i with
        | .node ks₁ cs₁ lf₁ =>
          let i₁ := if ks₁.getD i 0 < key then i + 1 else i
          .node ks₁ (cs₁.set i₁ (insertNonFull order fuel (cs₁.getD i₁ default) key)) lf₁
      else
        .node ks (cs.set i (insertNonFull order fuel child key)) lf

/-- Mirrors `Insert(key)`: create a singleton leaf root on an empty tree;
split a full root first (growing the height by one), then descend. -/
def Insert (bt : BTree) (key : Int) : BTree :=
  match bt.root with
  | none => { bt with root := some (.node [key] [] true) }
  | some root =>
    if keyCount root = bt.order - 1 then
      let newRoot := splitChild bt.order (.node [] [root] false) 0
      { bt with root := some (insertNonFull bt.order (bsize newRoot) newRoot key) }
    else
      { bt with root := some (insertNonFull bt.order (bsize root) root key) }

/-- Insert a whole sequence of keys, starting from the empty tree. -/
def insertAll (order : Nat) (keys : List Int) : BTree :=
  keys.foldl Insert (NewBTree order)

/-- All proper descendants of a node, i.e. exactly the non-root nodes
when applied to the root. -/
def descendants : BNode → List BNode
  | .node _ cs _ => descendantsList cs
where
  descendantsList : List BNode → List BNode
    | [] => []
    | c :: cs => c :: descendants c ++ descendantsList cs

/-- The depth of every leaf of the tree (a node with no children). -/
def leafDepths : BNode → List Nat
  | .node _ [] _ => [0]
  | .node _ (c :: cs) _ => (leafDepthsList (c :: cs)).map (· + 1)
where
  leafDepthsList : List BNode → List Nat
    | [] => []
    | c :: cs => leafDepths c ++ leafDepthsList cs

/-- The multiset of keys stored in the whole subtree. -/
def treeKeys : BNode → List Int
  | .node ks cs _ => ks ++ treeKeysList cs
where
  treeKeysList : List BNode → List Int
    | [] => []
    | c :: cs => treeKeys c ++ treeKeysList cs

/-- Mirrors `getPredecessor`: walk to the rightmost leaf of the subtree and
return its last key.  `fuel` bounds the walk along child ids. -/
def getPredecessor : Nat → BNode → Int
  | 0, _ => 0
  | fuel + 1, .node ks cs lf =>
    if lf then (ks.getLast?).getD 0
    else getPredecessor fuel (cs.getD (cs.length - 1) default)

/-- Mirrors `getSuccessor`: walk to the leftmost leaf of the subtree and
return its first key. -/
def getSuccessor : Nat → BNode → Int
  | 0, _ => 0
  | fuel + 1, .node ks cs lf =>
    if lf then ks.getD 0 0
    else getSuccessor fuel (cs.getD 0 default)

/-- Mirrors `borrowFromLeft(parentID, childIndex)`. -/
def borrowFromLeft (parent : BNode) (childIndex : Nat) : BNode :=
  match parent with
  | .node pkeys pchildren plf =>
    let child := pchildren.getD childIndex default
    let leftSibling := pchildren.getD (childIndex - 1) default
    let child₁ : BNode :=
      .node (insertAt child.keys 0 (pkeys.getD (childIndex - 1) 0)) child.children child.isLeaf
    let pkeys₁ := pkeys.set (childIndex - 1) ((leftSibling.keys.getLast?).getD 0)
    let leftSibling₁ : BNode :=
      .node leftSibling.keys.dropLast leftSibling.children leftSibling.isLeaf
    if leftSibling.isLeaf then
      .node pkeys₁ ((pchildren.set childIndex child₁).set (childIndex - 1) leftSibling₁) plf
    else
      let movedChild := leftSibling.children.getD (leftSibling.children.length - 1) default
      let leftSibling₂ : BNode :=
        .node leftSibling.keys.dropLast leftSibling.children.dropLast leftSibling.isLeaf
      let child₂ : BNode :=
        .node child₁.keys (insertAtChild child.children 0 movedChild) child.isLeaf
      .node pkeys₁ ((pchildren.set childIndex child₂).set (childIndex - 1) leftSibling₂) plf

/-- Mirrors `borrowFromRight(parentID, childIndex)`. -/
def borrowFromRight (parent : BNode) (childIndex : Nat) : BNode :=
  match parent with
  | .node pkeys pchildren plf =>
    let child := pchildren.getD childIndex default
    let rightSibling := pchildren.getD (childIndex + 1) default
    let child₁ : BNode :=
      .node (child.keys ++ [pkeys.getD childIndex 0]) child.children child.isLeaf
    let pkeys₁ := pkeys.set childIndex (rightSibling.keys.getD 0 0)
    let rightSibling₁ : BNode :=
      .node (rightSibling.keys.drop 1) rightSibling.children rightSibling.isLeaf
    if rightSibling.isLeaf then
      .node pkeys₁ ((pchildren.set childIndex child₁).set (childIndex + 1) rightSibling₁) plf
    else
      let movedChild := rightSibling.children.getD 0 default
      let rightSibling₂ : BNode :=
        .node (rightSibling.keys.drop 1) (rightSibling.children.drop 1) rightSibling.isLeaf
      let child₂ : BNode :=
        .node child₁.keys (child.children ++ [movedChild]) child.isLeaf
      .node pkeys₁ ((pchildren.set childIndex child₂).set (childIndex + 1) rightSibling₂) plf

/-- Mirrors `mergeChildren(parentID, leftIndex)`: pull the separating key
down into the left child, append the right child's keys and children, and
drop the right child from the parent. -/
def mergeChildren (parent : BNode) (leftIndex : Nat) : BNode :=
  match parent with
  | .node pkeys pchildren plf =>
    let leftChild := pchildren.getD leftIndex default
    let rightChild := pchildren.getD (leftIndex + 1) default
    let mergedKeys := leftChild.keys ++ pkeys.getD leftIndex 0 :: rightChild.keys
    let mergedChildren :=
      if leftChild.isLeaf then leftChild.children
      else leftChild.children ++ rightChild.children
    let merged : BNode := .node mergedKeys mergedChildren leftChild.isLeaf
    .node (removeAt pkeys leftIndex)
          (removeAtChild (pchildren.set leftIndex merged) (leftIndex + 1))
          plf

/-- Mirrors `fillChild(parentID, childIndex)`: borrow from the left
sibling, else from the right sibling, else merge (preferring the left
sibling whenever the child is not leftmost). -/
def fillChild (order : Nat) (parent : BNode) (childIndex : Nat) : BNode :=
  match parent with
  | .node pkeys pchildren plf =>
    let minKeys := (order - 1) / 2
    if childIndex > 0 ∧ minKeys < keyCount (pchildren.getD (childIndex - 1) default) then
      borrowFromLeft (.node pkeys pchildren plf) childIndex
    else if childIndex < pchildren.length - 1 ∧
        minKeys < keyCount (pchildren.getD (childIndex + 1) default) then
      borrowFromRight (.node pkeys pchildren plf) childIndex
    else if childIndex > 0 then
      mergeChildren (.node pkeys pchildren plf) (childIndex - 1)
    else
      mergeChildren (.node pkeys pchildren plf) childIndex

/--
Mirrors `deleteFromNode(nodeID, key)`, returning the rewritten subtree and
whether a key was deleted.  `fuel` bounds the recursion depth along child
ids (any fuel of at least the height of the subtree suffices).
-/
def deleteFromNode (order : Nat) : Nat → BNode → Int → BNode × Bool
  | 0, t, _ => (t, false)
  | fuel + 1, .node ks cs lf, key =>
    let minKeys := (order - 1) / 2
    let i := (ks.takeWhile (fun k => decide (k < key))).length
    if lf then
      if i < ks.length ∧ ks.getD i 0 = key then
        (.node (removeAt ks i) cs lf, true)
      else
        (.node ks cs lf, false)
    else
      if i < ks.length ∧ ks.getD i 0 = key then
        let leftChild := cs.getD i default
        let rightChild := cs.getD (i + 1) default
        if minKeys < keyCount leftChild then
          let pred := getPredecessor (bsize leftChild) leftChild
          let res := deleteFromNode order fuel leftChild pred
          (.node (ks.set i pred) (cs.set i res.1) lf, res.2)
        else if minKeys < keyCount rightChild then
          let succ := getSuccessor (bsize rightChild) rightChild
          let res := deleteFromNode order fuel rightChild succ
          (.node (ks.set i succ) (cs.set (i + 1) res.1) lf, res.2)
        else
          match mergeChildren (.node ks cs lf) i with
          | .node ks₁ cs₁ lf₁ =>
            let res := deleteFromNode order fuel (cs₁.getD i default) key
            (.node ks₁ (cs₁.set i res.1) lf₁, res.2)
      else
        let child := cs.getD i default
        let filled :=
          if keyCount child = minKeys then fillChild order (.node ks cs lf) i
          else .node ks cs lf
        match filled with
        | .node ks₁ cs₁ lf₁ =>
          let j := if i > ks₁.length then i - 1 else i
          let res := deleteFromNode order fuel (cs₁.getD j default) key
          (.node ks₁ (cs₁.set j res.1) lf₁, res.2)

/-- Mirrors `Delete(key)`: delete from the root, then collapse a keyless
internal root onto its single remaining child.  Note that the root id is
never cleared: a keyless *leaf* root stays in place. -/
def Delete (bt : BTree) (key : Int) : BTree × Bool :=
  match bt.root with
  | none => (bt, false)
  | some root =>
    let res := deleteFromNode bt.order (bsize root) root key
    match res.1 with
    | .node [] (c :: _) false => ({ bt with root := some c }, res.2)
    | r => ({ bt with root := some r }, res.2)

/-- Delete a whole sequence of keys in order. -/
def deleteAll (bt : BTree) (keys : List Int) : BTree :=
  keys.foldl (fun t k => (Delete t k).1) bt

@[simp] lemma keys_node (ks : List Int) (cs : List BNode) (lf : Bool) :
    (BNode.node ks cs lf).keys = ks := rfl

@[simp] lemma children_node (ks : List Int) (cs : List BNode) (lf : Bool) :
    (BNode.node ks cs lf).children = cs := rfl

@[simp] lemma isLeaf_node (ks : List Int) (cs : List BNode) (lf : Bool) :
    (BNode.node ks cs lf).isLeaf = lf := rfl

@[simp] lemma keyCount_node (ks : List Int) (cs : List BNode) (lf : Bool) :
    keyCount (BNode.node ks cs lf) = ks.length := rfl

lemma scanPos_le (keys : List Int) (key : Int) : scanPos keys key ≤ keys.length :=
  Nat.sub_le _ _

lemma length_insertAt (l : List Int) {i : Nat} (h : i ≤ l.length) (v : Int) :
    (insertAt l i v).length = l.length + 1 := by
  simp [insertAt]
  omega

lemma length_insertAtChild (l : List BNode) {i : Nat} (h : i ≤ l.length) (v : BNode) :
    (insertAtChild l i v).length = l.length + 1 := by
  simp [insertAtChild]
  omega

lemma mem_insertAtChild {l : List BNode} {i : Nat} {v c : BNode}
    (h : c ∈ insertAtChild l i v) : c = v ∨ c ∈ l := by
  simp only [insertAtChild, List.mem_append, List.mem_cons] at h
  rcases h with h | h | h
  · exact Or.inr (List.mem_of_mem_take h)
  · exact Or.inl h
  · exact Or.inr (List.mem_of_mem_drop h)

lemma getD_mem {l : List BNode} {i : Nat} (h : i < l.length) (d : BNode) :
    l.getD i d ∈ l := by
  induction l generalizing i with
  | nil => simp at h
  | cons a l ih =>
    cases i with
    | zero => simp
    | succ j =>
      simp only [List.getD_cons_succ, List.mem_cons]
      exact Or.inr (ih (by simpa using h))

lemma getD_set_self {l : List BNode} {i : Nat} (h : i < l.length) (v d : BNode) :
    (l.set i v).getD i d = v := by
  induction l generalizing i with
  | nil => simp at h
  | cons a l ih =>
    cases i with
    | zero => simp
    | succ j => simpa using ih (by simpa using h)

lemma getD_insertAtChild_self {l : List BNode} {i : Nat} (h : i ≤ l.length) (v d : BNode) :
    (insertAtChild l i v).getD i d = v := by
  induction l generalizing i with
  | nil =>
    have hi : i = 0 := by simpa using h
    subst hi
    simp [insertAtChild]
  | cons a l ih =>
    cases i with
    | zero => simp [insertAtChild]
    | succ j =>
      have := ih (i := j) (by simpa using h)
      simpa [insertAtChild] using this

lemma getD_insertAtChild_lt {l : List BNode} {i j : Nat} (hij : i < j) (hj : j ≤ l.length)
    (v d : BNode) : (insertAtChild l j v).getD i d = l.getD i d := by
  induction l generalizing i j with
  | nil =>
    have : j = 0 := by simpa using hj
    omega
  | cons a l ih =>
    cases j with
    | zero => omega
    | succ j' =>
      cases i with
      | zero => simp [insertAtChild]
      | succ i' =>
        have := ih (i := i') (j := j') (by omega) (by simpa using hj)
        simpa [insertAtChild] using this

lemma bsize_le_of_mem {c : BNode} {cs : List BNode} (h : c ∈ cs) :
    bsize c ≤ bsize.bsizeList cs := by
  induction cs with
  | nil => simp at h
  | cons a cs ih =>
    rcases List.mem_cons.mp h with rfl | h
    · simp [bsize.bsizeList]
    · have := ih h
      simp [bsize.bsizeList]
      omega

lemma bsizeList_take_le (cs : List BNode) (n : Nat) :
    bsize.bsizeList (cs.take n) ≤ bsize.bsizeList cs := by
  induction cs generalizing n with
  | nil => simp [bsize.bsizeList]
  | cons a cs ih =>
    cases n with
    | zero => simp [bsize.bsizeList]
    | succ n' =>
      have := ih n'
      simp [bsize.bsizeList]
      omega

lemma bsizeList_drop_le (cs : List BNode) (n : Nat) :
    bsize.bsizeList (cs.drop n) ≤ bsize.bsizeList cs := by
  induction cs generalizing n with
  | nil => simp [bsize.bsizeList]
  | cons a cs ih =>
    cases n with
    | zero => simp
    | succ n' =>
      have h1 := ih n'
      have h2 : 0 ≤ bsize a := Nat.zero_le _
      simp [bsize.bsizeList]
      omega

/--
Structural well-formedness at a uniform height `h`, as established by the
insertion path of the source: every node holds at most `m-1` keys, every
internal node has one more child than keys, every child of a node holds at
least `m/2 - 1` keys (`⌊m/2⌋ - 1`; this is what `splitChild` actually
produces), and all leaves sit at the same depth `h`.
-/
inductive Good (m : Nat) : Nat → BNode → Prop where
  | leaf (ks : List Int) (hk : ks.length ≤ m - 1) : Good m 0 (.node ks [] true)
  | internal (ks : List Int) (cs : List BNode) (h : Nat)
      (hk : ks.length ≤ m - 1) (hc : cs.length = ks.length + 1)
      (hgood : ∀ c ∈ cs, Good m h c)
      (hmin : ∀ c ∈ cs, m / 2 - 1 ≤ keyCount c) :
      Good m (h + 1) (.node ks cs false)

lemma Good.keyCount_le {m h : Nat} {t : BNode} (hg : Good m h t) : keyCount t ≤ m - 1 := by
  cases hg with
  | leaf ks hk => simpa using hk
  | internal ks cs h hk hc hgood hmin => simpa using hk

lemma mem_descendantsList {n : BNode} {cs : List BNode} :
    n ∈ descendants.descendantsList cs ↔ ∃ c ∈ cs, n = c ∨ n ∈ descendants c := by
  induction cs with
  | nil => simp [descendants.descendantsList]
  | cons a cs ih =>
    constructor
    · intro h
      rw [descendants.descendantsList] at h
      rcases List.mem_cons.mp h with rfl | h₂
      · exact ⟨n, List.mem_cons_self _ _, Or.inl rfl⟩
      · rcases List.mem_append.mp h₂ with h₃ | h₃
        · exact ⟨a, List.mem_cons_self _ _, Or.inr h₃⟩
        · obtain ⟨c, hc, hc2⟩ := ih.mp h₃
          exact ⟨c, List.mem_cons_of_mem _ hc, hc2⟩
    · rintro ⟨c, hc, hc2⟩
      rw [descendants.descendantsList]
      rcases List.mem_cons.mp hc with rfl | hc
      · rcases hc2 with rfl | h₂
        · exact List.mem_cons_self _ _
        · exact List.mem_cons_of_mem _ (List.mem_append.mpr (Or.inl h₂))
      · exact List.mem_cons_of_mem _ (List.mem_append.mpr (Or.inr (ih.mpr ⟨c, hc, hc2⟩)))

/-- Every proper descendant of a `Good` tree respects both key-count bounds. -/
lemma Good.descendants_bounds {m h : Nat} {t : BNode} (hg : Good m h t) :
    ∀ n ∈ descendants t, m / 2 - 1 ≤ keyCount n ∧ keyCount n ≤ m - 1 := by
  induction hg with
  | leaf ks hk => simp [descendants, descendants.descendantsList]
  | internal ks cs h hk hc hgood hmin ih =>
    intro n hn
    simp only [descendants] at hn
    rcases mem_descendantsList.mp hn with ⟨c, hcmem, rfl | hsub⟩
    · exact ⟨hmin _ hcmem, (hgood _ hcmem).keyCount_le⟩
    · exact ih _ hcmem _ hsub

lemma mem_leafDepthsList {d : Nat} {cs : List BNode} :
    d ∈ leafDepths.leafDepthsList cs ↔ ∃ c ∈ cs, d ∈ leafDepths c := by
  induction cs with
  | nil => simp [leafDepths.leafDepthsList]
  | cons a cs ih =>
    constructor
    · intro h
      rw [leafDepths.leafDepthsList] at h
      rcases List.mem_append.mp h with h₂ | h₂
      · exact ⟨a, List.mem_cons_self _ _, h₂⟩
      · obtain ⟨c, hc, hd⟩ := ih.mp h₂
        exact ⟨c, List.mem_cons_of_mem _ hc, hd⟩
    · rintro ⟨c, hc, hd⟩
      rw [leafDepths.leafDepthsList]
      rcases List.mem_cons.mp hc with rfl | hc
      · exact List.mem_append.mpr (Or.inl hd)
      · exact List.mem_append.mpr (Or.inr (ih.mpr ⟨c, hc, hd⟩))

lemma bsize_pos (t : BNode) : 1 ≤ bsize t := by
  cases t with
  | node ks cs lf => simp [bsize]

/--
Effect of `splitChild` on a parent with room whose child at `ci` is full:
the parent gains one key and one child, every child of the result is still
well formed at the original child height and holds at least `m/2 - 1`
keys, the two halves are strictly non-full, and no child of the result is
larger than the original child list (used for recursion fuel).
-/
lemma splitChild_good {m h : Nat} {ks : List Int} {cs : List BNode} {ci : Nat}
    (hm : 3 ≤ m)
    (hci : ci < cs.length)
    (hkslen : ks.length < m - 1)
    (hcs : cs.length = ks.length + 1)
    (hgood : ∀ c ∈ cs, Good m h c)
    (hmin : ∀ c ∈ cs, m / 2 - 1 ≤ keyCount c)
    (hfull : keyCount (cs.getD ci default) = m - 1) :
    ∃ ks₁ cs₁,
      splitChild m (.node ks cs false) ci = .node ks₁ cs₁ false ∧
      ks₁.length = ks.length + 1 ∧
      cs₁.length = cs.length + 1 ∧
      (∀ c ∈ cs₁, Good m h c) ∧
      (∀ c ∈ cs₁, m / 2 - 1 ≤ keyCount c) ∧
      keyCount (cs₁.getD ci default) < m - 1 ∧
      keyCount (cs₁.getD (ci + 1) default) < m - 1 ∧
      (∀ c ∈ cs₁, bsize c ≤ bsize.bsizeList cs) := by
  have hchild_mem : cs.getD ci default ∈ cs := getD_mem hci _
  have hgc : Good m h (cs.getD ci default) := hgood _ hchild_mem
  rcases hC : cs.getD ci default with ⟨ckeys, cchildren, cleaf⟩
  rw [hC] at hgc hfull
  simp only [keyCount_node] at hfull
  set mid := (m - 1) / 2 with hmid
  have hmid_lt : mid < m - 1 := by omega
  have hmid_ge : m / 2 - 1 ≤ mid := by omega
  set nn : BNode :=
    .node (ckeys.drop (mid + 1)) (if cleaf then [] else cchildren.drop (mid + 1)) cleaf
    with hnn
  set fc : BNode :=
    .node (ckeys.take mid) (if cleaf then cchildren else cchildren.take (mid + 1)) cleaf
    with hfc
  have hsplit : splitChild m (.node ks cs false) ci =
      .node (insertAt ks ci (ckeys.getD mid 0))
            (insertAtChild (cs.set ci fc) (ci + 1) nn) false := by
    rw [splitChild, hC]
    simp only []
    rw [if_pos hci]
  have hci_le : ci ≤ ks.length := by omega
  have hci1_le : ci + 1 ≤ (cs.set ci fc).length := by simp; omega
  have hlen₁ : (insertAt ks ci (ckeys.getD mid 0)).length = ks.length + 1 :=
    length_insertAt _ hci_le _
  have hclen₁ : (insertAtChild (cs.set ci fc) (ci + 1) nn).length = cs.length + 1 := by
    rw [length_insertAtChild _ hci1_le]
    simp
  -- key counts of the two halves
  have hfc_keys : keyCount fc = mid := by
    rw [hfc]
    simp only [keyCount_node, List.length_take]
    omega
  have hnn_keys : keyCount nn = m - 1 - (mid + 1) := by
    rw [hnn]
    simp only [keyCount_node, List.length_drop]
    omega
  -- well-formedness of the two halves
  have hfc_good : Good m h fc := by
    cases hgc with
    | leaf _ hk =>
      rw [hfc]
      simp only [if_pos]
      exact Good.leaf _ (by simp only [List.length_take]; omega)
    | internal _ cchildren hsub hk hcl hgoods hmins =>
      rw [hfc]
      simp only [if_neg Bool.false_ne_true]
      refine Good.internal _ _ hsub (by simp only [List.length_take]; omega) ?_ ?_ ?_
      · simp only [List.length_take, List.length_take]
        omega
      · exact fun c hc => hgoods c (List.mem_of_mem_take hc)
      · exact fun c hc => hmins c (List.mem_of_mem_take hc)
  have hnn_good : Good m h nn := by
    cases hgc with
    | leaf _ hk =>
      rw [hnn]
      simp only [if_pos]
      exact Good.leaf _ (by simp only [List.length_drop]; omega)
    | internal _ cchildren hsub hk hcl hgoods hmins =>
      rw [hnn]
      simp only [if_neg Bool.false_ne_true]
      refine Good.internal _ _ hsub (by simp only [List.length_drop]; omega) ?_ ?_ ?_
      · simp only [List.length_drop, List.length_drop]
        omega
      · exact fun c hc => hgoods c (List.mem_of_mem_drop hc)
      · exact fun c hc => hmins c (List.mem_of_mem_drop hc)
  -- recursion-fuel bound for the two halves
  have hbs_child : bsize (BNode.node ckeys cchildren cleaf) ≤ bsize.bsizeList cs := by
    rw [← hC]
    exact bsize_le_of_mem hchild_mem
  have hfc_bs : bsize fc ≤ bsize.bsizeList cs := by
    refine le_trans ?_ hbs_child
    rw [hfc]
    simp only [bsize]
    cases cleaf with
    | true => simp
    | false =>
      simp only [if_neg Bool.false_ne_true]
      have := bsizeList_take_le cchildren (mid + 1)
      omega
  have hnn_bs : bsize nn ≤ bsize.bsizeList cs := by
    refine le_trans ?_ hbs_child
    rw [hnn]
    simp only [bsize]
    cases cleaf with
    | true => simp [bsize.bsizeList]
    | false =>
      simp only [if_neg Bool.false_ne_true]
      have := bsizeList_drop_le cchildren (mid + 1)
      omega
  -- classify the members of the new child list
  have hmem : ∀ c ∈ insertAtChild (cs.set ci fc) (ci + 1) nn,
      c = nn ∨ c = fc ∨ c ∈ cs := by
    intro c hcmem
    rcases mem_insertAtChild hcmem with rfl | hcmem
    · exact Or.inl rfl
    · rcases List.mem_or_eq_of_mem_set hcmem with hcmem | rfl
      · exact Or.inr (Or.inr hcmem)
      · exact Or.inr (Or.inl rfl)
  refine ⟨_, _, hsplit, hlen₁, hclen₁, ?_, ?_, ?_, ?_, ?_⟩
  · intro c hcmem
    rcases hmem c hcmem with rfl | rfl | hcmem
    · exact hnn_good
    · exact hfc_good
    · exact hgood _ hcmem
  · intro c hcmem
    rcases hmem c hcmem with rfl | rfl | hcmem
    · omega
    · omega
    · exact hmin _ hcmem
  · rw [getD_insertAtChild_lt (Nat.lt_succ_self ci) hci1_le, getD_set_self (by simpa using hci)]
    omega
  · rw [getD_insertAtChild_self hci1_le]
    omega
  · intro c hcmem
    rcases hmem c hcmem with rfl | rfl | hcmem
    · exact hnn_bs
    · exact hfc_bs
    · exact bsize_le_of_mem hcmem

/--
`insertNonFull` preserves well-formedness at the same height when applied
to a non-full node with enough fuel, and changes the key count of the node
it is applied to by at most one (never decreasing it).
-/
lemma insertNonFull_good {m : Nat} (hm : 3 ≤ m) :
    ∀ fuel h t key, bsize t ≤ fuel → Good m h t → keyCount t < m - 1 →
      Good m h (insertNonFull m fuel t key) ∧
      keyCount t ≤ keyCount (insertNonFull m fuel t key) ∧
      keyCount (insertNonFull m fuel t key) ≤ keyCount t + 1 := by
  intro fuel
  induction fuel with
  | zero =>
    intro h t key hfuel _ _
    have := bsize_pos t
    omega
  | succ fuel ih =>
    intro h t key hfuel hg hlt
    cases hg with
    | leaf ks hk =>
      simp only [insertNonFull, if_pos]
      have hpos := scanPos_le ks key
      have hlen := length_insertAt ks (scanPos_le ks key) key
      refine ⟨Good.leaf _ ?_, ?_, ?_⟩
      · rw [hlen]
        simpa using hlt
      · simp only [keyCount_node] at *
        omega
      · simp only [keyCount_node] at *
        omega
    | internal ks cs hh hk hc hgood hmin =>
      simp only [keyCount_node] at hlt
      have hi : scanPos ks key < cs.length := by
        have := scanPos_le ks key
        omega
      set i := scanPos ks key with hidef
      have hchild_mem : cs.getD i default ∈ cs := getD_mem hi _
      by_cases hfull : keyCount (cs.getD i default) = m - 1
      · -- full child: split first, then descend into one of the two halves
        obtain ⟨ks₁, cs₁, hsplit, hlen₁, hclen₁, hgood₁, hmin₁, hci_lt, hci1_lt, hbs₁⟩ :=
          splitChild_good hm hi hlt hc hgood hmin hfull
        have hstep : insertNonFull m (fuel + 1) (.node ks cs false) key =
            .node ks₁
              (cs₁.set (if ks₁.getD i 0 < key then i + 1 else i)
                (insertNonFull m fuel
                  (cs₁.getD (if ks₁.getD i 0 < key then i + 1 else i) default) key))
              false := by
          rw [insertNonFull]
          simp only [if_neg Bool.false_ne_true, ← hidef]
          rw [if_pos hfull, hsplit]
        set i₁ := if ks₁.getD i 0 < key then i + 1 else i with hi₁def
        have hi₁cases : i₁ = i ∨ i₁ = i + 1 := by
          rw [hi₁def]
          split
          · exact Or.inr rfl
          · exact Or.inl rfl
        have hi₁lt : i₁ < cs₁.length := by
          rcases hi₁cases with h1 | h1 <;> omega
        have hch₁mem : cs₁.getD i₁ default ∈ cs₁ := getD_mem hi₁lt _
        have hch₁good : Good m hh (cs₁.getD i₁ default) := hgood₁ _ hch₁mem
        have hch₁lt : keyCount (cs₁.getD i₁ default) < m - 1 := by
          rcases hi₁cases with h1 | h1 <;> rw [h1]
          · exact hci_lt
          · exact hci1_lt
        have hch₁bs : bsize (cs₁.getD i₁ default) ≤ fuel := by
          have h1 := hbs₁ _ hch₁mem
          have h2 : bsize (BNode.node ks cs false) = 1 + bsize.bsizeList cs := by
            simp [bsize]
          omega
        obtain ⟨hrec_good, hrec_lo, hrec_hi⟩ := ih hh _ key hch₁bs hch₁good hch₁lt
        rw [hstep]
        refine ⟨?_, ?_, ?_⟩
        · refine Good.internal _ _ hh (by omega) (by simp; omega) ?_ ?_
          · intro c hcmem
            rcases List.mem_or_eq_of_mem_set hcmem with hcmem | rfl
            · exact hgood₁ _ hcmem
            · exact hrec_good
          · intro c hcmem
            rcases List.mem_or_eq_of_mem_set hcmem with hcmem | rfl
            · exact hmin₁ _ hcmem
            · have := hmin₁ _ hch₁mem
              omega
        · simp only [keyCount_node]
          omega
        · simp only [keyCount_node]
          omega
      · -- non-full child: descend directly
        have hch_good : Good m hh (cs.getD i default) := hgood _ hchild_mem
        have hch_lt : keyCount (cs.getD i default) < m - 1 := by
          have := hch_good.keyCount_le
          omega
        have hch_bs : bsize (cs.getD i default) ≤ fuel := by
          have h1 := bsize_le_of_mem hchild_mem
          have h2 : bsize (BNode.node ks cs false) = 1 + bsize.bsizeList cs := by
            simp [bsize]
          omega
        obtain ⟨hrec_good, hrec_lo, hrec_hi⟩ := ih hh _ key hch_bs hch_good hch_lt
        have hstep : insertNonFull m (fuel + 1) (.node ks cs false) key =
            .node ks (cs.set i (insertNonFull m fuel (cs.getD i default) key)) false := by
          rw [insertNonFull]
          simp only [if_neg Bool.false_ne_true, ← hidef]
          rw [if_neg hfull]
        rw [hstep]
        refine ⟨?_, ?_, ?_⟩
        · refine Good.internal _ _ hh hk (by simp [hc]) ?_ ?_
          · intro c hcmem
            rcases List.mem_or_eq_of_mem_set hcmem with hcmem | rfl
            · exact hgood _ hcmem
            · exact hrec_good
          · intro c hcmem
            rcases List.mem_or_eq_of_mem_set hcmem with hcmem | rfl
            · exact hmin _ hcmem
            · have := hmin _ hchild_mem
              omega
        · simp
        · simp

/-- In a `Good` tree of height `h` every leaf depth equals `h`. -/
lemma Good.leafDepths_eq {m h : Nat} {t : BNode} (hg : Good m h t) :
    ∀ d ∈ leafDepths t, d = h := by
  induction hg with
  | leaf ks hk => simp [leafDepths]
  | internal ks cs h hk hc hgood hmin ih =>
    intro d hd
    cases cs with
    | nil => simp at hc
    | cons c cs' =>
      simp only [leafDepths, List.mem_map] at hd
      obtain ⟨d', hd', rfl⟩ := hd
      rcases mem_leafDepthsList.mp hd' with ⟨c₀, hc₀, hdc⟩
      have := ih c₀ hc₀ _ hdc
      omega

/-- Tree-level invariant: the order is at least 3 and the root (when
present) is well formed at some uniform height. -/
def TreeInv (bt : BTree) : Prop :=
  3 ≤ bt.order ∧ ∀ r, bt.root = some r → ∃ h, Good bt.order h r

lemma Insert_order (bt : BTree) (k : Int) : (Insert bt k).order = bt.order := by
  cases hbt : bt.root with
  | none => simp [Insert, hbt]
  | some r =>
    simp only [Insert, hbt]
    split <;> rfl

lemma Insert_inv {bt : BTree} (hinv : TreeInv bt) (k : Int) : TreeInv (Insert bt k) := by
  obtain ⟨hm, hroot⟩ := hinv
  refine ⟨by rw [Insert_order]; exact hm, ?_⟩
  intro r' hr'
  rw [Insert_order]
  cases hbt : bt.root with
  | none =>
    simp only [Insert, hbt] at hr'
    obtain rfl : BNode.node [k] [] true = r' := by simpa using hr'
    exact ⟨0, Good.leaf _ (by simp; omega)⟩
  | some r =>
    obtain ⟨h, hg⟩ := hroot r hbt
    by_cases hfull : keyCount r = bt.order - 1
    · obtain ⟨ks₁, cs₁, hsplit, hlen₁, hclen₁, hgood₁, hmin₁, _, _, _⟩ :=
        @splitChild_good bt.order h [] [r] 0
          hm (by simp) (by simp; omega) (by simp)
          (by intro c hc; rcases List.mem_singleton.mp hc with rfl; exact hg)
          (by intro c hc; rcases List.mem_singleton.mp hc with rfl; omega)
          (by simpa using hfull)
      have hlen₁' : ks₁.length = 1 := by simpa using hlen₁
      have hclen₁' : cs₁.length = 2 := by simpa using hclen₁
      have hnew_good : Good bt.order (h + 1) (.node ks₁ cs₁ false) :=
        Good.internal _ _ h (by omega) (by omega) hgood₁ hmin₁
      have hnew_lt : keyCount (BNode.node ks₁ cs₁ false) < bt.order - 1 := by
        simp only [keyCount_node]
        omega
      simp only [Insert, hbt, if_pos hfull, hsplit] at hr'
      obtain rfl : insertNonFull bt.order (bsize (BNode.node ks₁ cs₁ false))
          (BNode.node ks₁ cs₁ false) k = r' := by simpa using hr'
      exact ⟨h + 1,
        (insertNonFull_good hm _ _ _ k le_rfl hnew_good hnew_lt).1⟩
    · have hlt : keyCount r < bt.order - 1 :=
        lt_of_le_of_ne hg.keyCount_le hfull
      simp only [Insert, hbt, if_neg hfull] at hr'
      obtain rfl : insertNonFull bt.order (bsize r) r k = r' := by simpa using hr'
      exact ⟨h, (insertNonFull_good hm _ _ _ k le_rfl hg hlt).1⟩

lemma foldl_Insert_inv :
    ∀ (ks : List Int) (bt : BTree), TreeInv bt →
      TreeInv (ks.foldl Insert bt) ∧ (ks.foldl Insert bt).order = bt.order := by
  intro ks
  induction ks with
  | nil => exact fun bt h => ⟨h, rfl⟩
  | cons k ks ih =>
    intro bt h
    obtain ⟨h2, h3⟩ := ih (Insert bt k) (Insert_inv h k)
    exact ⟨h2, by rw [List.foldl_cons, h3, Insert_order]⟩

lemma NewBTree_inv (m : Nat) (hm : 3 ≤ m) :
    TreeInv (NewBTree m) ∧ (NewBTree m).order = m := by
  refine ⟨⟨?_, ?_⟩, ?_⟩
  · simp only [NewBTree]
    split <;> omega
  · intro r hr
    simp [NewBTree] at hr
  · simp only [NewBTree]
    rw [if_neg (by omega)]

/--
C1 (amended).  For every B-Tree of order `m ≥ 3` and every sequence of
`Insert` operations starting from the empty tree, after each completed
insertion every non-root node holds between `⌊m/2⌋ - 1` and `m - 1` keys,
and all leaves are at equal depth.  (The state after each insertion of a
sequence is `insertAll m ks` for the corresponding prefix `ks`, so the
statement over all key lists covers every intermediate tree.  The spec
claims a lower bound of `⌈m/2⌉ - 1`, which fails for odd orders: the
right half produced by `splitChild` holds only `⌊m/2⌋ - 1` keys.)
-/
theorem insert_invariant (m : Nat) (hm : 3 ≤ m) (ks : List Int) :
    ∀ r, (insertAll m ks).root = some r →
      (∀ n ∈ descendants r, m / 2 - 1 ≤ keyCount n ∧ keyCount n ≤ m - 1) ∧
      ∀ d₁ ∈ leafDepths r, ∀ d₂ ∈ leafDepths r, d₁ = d₂ := by
  intro r hr
  obtain ⟨hinv0, horder0⟩ := NewBTree_inv m hm
  obtain ⟨⟨_, hroot⟩, horder⟩ := foldl_Insert_inv ks (NewBTree m) hinv0
  rw [horder0] at horder
  obtain ⟨h, hg⟩ := hroot r hr
  rw [horder] at hg
  exact ⟨hg.descendants_bounds, fun d₁ h₁ d₂ h₂ =>
    (hg.leafDepths_eq d₁ h₁).trans (hg.leafDepths_eq d₂ h₂).symm⟩

/-- Witness for `insert_invariant` at order 4 and keys `[10,20,30,40]`. -/
theorem insert_invariant_witness :
    (3 ≤ 4 ∧
      ∀ r, (insertAll 4 [10, 20, 30, 40]).root = some r →
        (∀ n ∈ descendants r, 4 / 2 - 1 ≤ keyCount n ∧ keyCount n ≤ 4 - 1) ∧
        ∀ d₁ ∈ leafDepths r, ∀ d₂ ∈ leafDepths r, d₁ = d₂) ∧
    (insertAll 4 [10, 20, 30, 40]).root.isSome = true :=
  ⟨⟨by decide, insert_invariant 4 (by decide) [10, 20, 30, 40]⟩, by decide⟩

/--
C1 (counterexample to the claim as stated).  With order `m = 3` (so the
claimed lower bound is `⌈3/2⌉ - 1 = 1`) the insert sequence `[3,5,4]`
produces a tree whose right child of the root holds 0 keys: after
`splitChild` the right half receives `(m-1) - ((m-1)/2 + 1) = 0` keys and
the subsequent descent inserts `4` into the left half.
-/
theorem insert_claim_counterexample :
    ∃ r, (insertAll 3 [3, 5, 4]).root = some r ∧
      ∃ n ∈ descendants r, keyCount n < (3 + 1) / 2 - 1 :=
  ⟨.node [5] [.node [3, 4] [] true, .node [] [] true] false, rfl, by decide⟩

/--
C4 (code bug).  The spec claims that inserting a finite set of keys and
then deleting every inserted key leaves the tree empty with the root id
cleared.  With order 3, after inserting `{3,5,7,10,12}` the tree is
`root [5,10]` with children `[3] [7] [12]`; `Delete 7` then merges
children 0 and 1 (the left-preferring merge in `fillChild`), after which
the key 7 lives in child 0, but `deleteFromNode` only adjusts the descent
index when `i > len(keys)` and therefore recurses into child 1 (`[12]`):
the delete returns false and 7 survives.  Deleting every inserted key in
the order `[7,3,5,10,12]` consequently leaves `[7]` in the tree.  Even
when every delete succeeds (order `[3,5,7,10,12]`), the root id is never
cleared: a keyless leaf root remains.
-/
theorem delete_all_keys_failure :
    (Delete (insertAll 3 [3, 5, 7, 10, 12]) 7).2 = false ∧
    7 ∈ ((Delete (insertAll 3 [3, 5, 7, 10, 12]) 7).1.root.elim [] treeKeys) ∧
    (deleteAll (insertAll 3 [3, 5, 7, 10, 12]) [7, 3, 5, 10, 12]).root.elim [] treeKeys
      = [7] ∧
    (deleteAll (insertAll 3 [3, 5, 7, 10, 12]) [3, 5, 7, 10, 12]).root.elim [] treeKeys
      = [] ∧
    (deleteAll (insertAll 3 [3, 5, 7, 10, 12]) [3, 5, 7, 10, 12]).root.isSome = true := by
  decide

end BTreeSpec

deriving instance DecidableEq for Except

namespace EngineSpec

/-- `protocol.SimulationMode`. -/
inductive Mode where
  | idle
  | step
  | playing
  | paused
deriving DecidableEq

/-- The error values declared at the top of `engine.go`. -/
inductive EngineError where
  | notInitialized
  | alreadyRunning
  | noMoreSteps
  | noPreviousSteps
  | invalidStepIndex
deriving DecidableEq

/-- `protocol.Highlight` (display hints carried by steps). -/
structure Highlight where
  type : String
  id : String
  color : String
  animation : String
deriving DecidableEq

/-- `engine.Step`.  The `Execute` closure field is omitted: the engine
never invokes it (it calls `Simulation.ExecuteStep` instead), and the
shipped simulations leave it nil. -/
structure Step where
  index : Nat
  title : String
  description : String
  highlights : List Highlight
deriving DecidableEq

instance : Inhabited Step := ⟨⟨0, "", "", []⟩⟩

/-- `engine.StepResult`.  The Go `Error` field and the free-form `Data`
map are carried as plain data. -/
structure StepResult where
  success : Bool
  error : Option EngineError
  highlights : List Highlight
  data : List (String × String)
  description : String
deriving DecidableEq

instance : Inhabited StepResult := ⟨⟨false, none, [], [], ""⟩⟩

/--
`engine.Engine` state.  `speed` is exact arithmetic standing for the Go
`float64` (every value the claims exercise — 0.25, 1.0, 4.0, 10.0, 0.01 —
is exactly representable, and `SetSpeed` only compares and assigns).
`tickerInterval` models the period of the ticker that the spawned
`playLoop` goroutine creates from the speed current when the loop starts
(`time.Second / speed`, recorded here in seconds); it is `none` when no
autoplay ticker is running.  The mutex, stop channel and event emitter
are concurrency plumbing with no bearing on the state transitions and
are not modeled.
-/
structure Engine where
  mode : Mode
  currentStep : Int
  steps : List Step
  history : List StepResult
  speed : ℚ
  tickerInterval : Option ℚ
deriving DecidableEq

/--
Mirrors `Engine.StepForward`.  The producer simulation is modeled as the
pure function `sim : Nat → StepResult`; this is faithful to the shipped
simulations, whose `ExecuteStep(index)` computes its result from the
prepared step list at `index` alone.
-/
def StepForward (sim : Nat → StepResult) (e : Engine) :
    Engine × Except EngineError StepResult :=
  if e.steps.length = 0 then (e, .error .notInitialized)
  else
    let nextStep := e.currentStep + 1
    if (e.steps.length : Int) ≤ nextStep then (e, .error .noMoreSteps)
    else
      let result := sim nextStep.toNat
      ({ e with currentStep := nextStep, history := e.history ++ [result], mode := .step },
        .ok result)

/--
Mirrors `Engine.StepBackward`: decrement the cursor, serve the already
captured `history` entry when one exists at the new cursor, and otherwise
reset to the beginning (`Simulation.Reset` only clears producer fields
that the engine replays from `history`, so it has no engine-visible
effect).  The `(nil, nil)` Go return is `.ok none`.
-/
def StepBackward (e : Engine) : Engine × Except EngineError (Option StepResult) :=
  if e.currentStep < 0 then (e, .error .noPreviousSteps)
  else
    let c := e.currentStep - 1
    if 0 ≤ c ∧ c < (e.history.length : Int) then
      ({ e with currentStep := c }, .ok (some (e.history.getD c.toNat default)))
    else
      ({ e with currentStep := c, history := [], mode := .idle }, .ok none)

/-- Mirrors `Engine.Play`: reject when already playing or uninitialized,
otherwise enter playing mode; the spawned `playLoop` immediately creates
its ticker with period `1s / speed` from the current speed. -/
def Play (e : Engine) : Engine × Option EngineError :=
  if e.mode = .playing then (e, some .alreadyRunning)
  else if e.steps.length = 0 then (e, some .notInitialized)
  else ({ e with mode := .playing, tickerInterval := some (1 / e.speed) }, none)

/-- Mirrors `Engine.Pause`: only a playing engine transitions to paused
(stopping the ticker); otherwise the state is untouched. -/
def Pause (e : Engine) : Engine :=
  if e.mode = .playing then { e with mode := .paused, tickerInterval := none } else e

/-- Mirrors `Engine.SetSpeed`: clamp into `[0.25, 4.0]` and store.  The
running ticker (if any) is not touched. -/
def SetSpeed (e : Engine) (speed : ℚ) : Engine :=
  let s₁ := if speed < 1 / 4 then 1 / 4 else speed
  let s₂ := if 4 < s₁ then 4 else s₁
  { e with speed := s₂ }

/-- One firing of the `playLoop` ticker: attempt `StepForward`; on
`ErrNoMoreSteps` call `Pause` and stop the loop; any other outcome leaves
the loop running with the stepped state. -/
def tick (sim : Nat → StepResult) (e : Engine) : Engine :=
  let res := StepForward sim e
  match res.2 with
  | .error .noMoreSteps => Pause res.1
  | _ => res.1

/-- A four-step demo trace with pairwise distinct descriptions. -/
def demoStep (i : Nat) : Step :=
  { index := i, title := "s" ++ toString i, description := "d" ++ toString i, highlights := [] }

def demoSteps : List Step := [demoStep 0, demoStep 1, demoStep 2, demoStep 3]

/-- A deterministic simulation over `demoSteps`, shaped like
`ParserSimulation.ExecuteStep`: the result repeats the prepared step's
highlights and description. -/
def demoSim (i : Nat) : StepResult :=
  { success := true, error := none, highlights := (demoSteps.getD i default).highlights,
    data := [], description := (demoSteps.getD i default).description }

/-- An engine with the demo trace freshly attached. -/
def demoEngine : Engine :=
  { mode := .idle, currentStep := -1, steps := demoSteps, history := [],
    speed := 1, tickerInterval := none }

/-- Forward, forward, backward, forward, forward: the cursor is back at 2
but `history` has grown to `[r0, r1, r1, r2]`, misaligned from index 2 on. -/
def demoDrift : Engine :=
  let e₁ := (StepForward demoSim demoEngine).1
  let e₂ := (StepForward demoSim e₁).1
  let e₃ := (StepBackward e₂).1
  let e₄ := (StepForward demoSim e₃).1
  (StepForward demoSim e₄).1

/--
C6 (code bug).  From `demoDrift` (a state reached by stepping forward
twice, backward once, then forward twice — cursor 2), `StepForward`
succeeds, but the following `StepBackward` serves `history[2]`, which
after the backward/forward drift holds the re-executed result of step 1,
not the captured rendering data of step 2 that was current before the
pair.  `StepForward` appends to `history` without truncating it to the
cursor, so the per-index correspondence the replay relies on is lost.
-/
theorem step_backward_serves_stale_history :
    demoDrift.currentStep = 2 ∧
    (StepForward demoSim demoDrift).2 = .ok (demoSim 3) ∧
    (StepBackward (StepForward demoSim demoDrift).1).2 = .ok (some (demoSim 1)) ∧
    demoSim 1 ≠ demoSim 2 := by decide

/--
C7.  With a non-empty trace and an in-range cursor, `StepForward` fails
with `ErrNoMoreSteps` (the spec's `NoMoreSteps`) exactly when the cursor
is at `len(trace) - 1`, and `Play` fails with `ErrAlreadyRunning` (the
spec's `AlreadyPlaying`) exactly when the mode is already `playing`; in
each failing case the whole engine state is returned unchanged.
-/
theorem step_forward_play_error_conditions (sim : Nat → StepResult) (e : Engine)
    (hne : e.steps ≠ []) (hcur : e.currentStep < (e.steps.length : Int)) :
    ((StepForward sim e).2 = .error .noMoreSteps ↔
        e.currentStep = (e.steps.length : Int) - 1) ∧
    ((StepForward sim e).2 = .error .noMoreSteps → (StepForward sim e).1 = e) ∧
    ((Play e).2 = some .alreadyRunning ↔ e.mode = .playing) ∧
    (e.mode = .playing → (Play e).1 = e) := by
  have hlen0 : ¬ e.steps.length = 0 := by simpa using hne
  refine ⟨?_, ?_, ?_, ?_⟩
  · simp only [StepForward, if_neg hlen0]
    by_cases hend : (e.steps.length : Int) ≤ e.currentStep + 1
    · rw [if_pos hend]
      simp only [true_iff, reduceCtorEq]
      omega
    · rw [if_neg hend]
      constructor
      · intro h
        exact absurd h (by simp)
      · intro h
        omega
  · simp only [StepForward, if_neg hlen0]
    by_cases hend : (e.steps.length : Int) ≤ e.currentStep + 1
    · rw [if_pos hend]
      intro _
      rfl
    · rw [if_neg hend]
      intro h
      exact absurd h (by simp)
  · simp only [Play]
    by_cases hmode : e.mode = .playing
    · rw [if_pos hmode]
      simp [hmode]
    · rw [if_neg hmode]
      by_cases h0 : e.steps.length = 0
      · rw [if_pos h0]
        simp [hmode]
      · rw [if_neg h0]
        simp [hmode]
  · intro hmode
    simp only [Play, if_pos hmode]

/-- Witness for `step_forward_play_error_conditions`: a playing engine at
the last cursor of the demo trace. -/
theorem step_forward_play_error_conditions_witness :
    (({ demoEngine with mode := .playing, currentStep := 3 } : Engine).steps ≠ [] ∧
      ({ demoEngine with mode := .playing, currentStep := 3 } : Engine).currentStep <
        (({ demoEngine with mode := .playing, currentStep := 3 } : Engine).steps.length : Int)) ∧
    ((StepForward demoSim { demoEngine with mode := .playing, currentStep := 3 }).2 =
        .error .noMoreSteps ↔
      ({ demoEngine with mode := .playing, currentStep := 3 } : Engine).currentStep =
        (({ demoEngine with mode := .playing, currentStep := 3 } : Engine).steps.length : Int) - 1) ∧
    ((StepForward demoSim { demoEngine with mode := .playing, currentStep := 3 }).2 =
        .error .noMoreSteps →
      (StepForward demoSim { demoEngine with mode := .playing, currentStep := 3 }).1 =
        { demoEngine with mode := .playing, currentStep := 3 }) ∧
    ((Play { demoEngine with mode := .playing, currentStep := 3 }).2 = some .alreadyRunning ↔
      ({ demoEngine with mode := .playing, currentStep := 3 } : Engine).mode = .playing) ∧
    (({ demoEngine with mode := .playing, currentStep := 3 } : Engine).mode = .playing →
      (Play { demoEngine with mode := .playing, currentStep := 3 }).1 =
        { demoEngine with mode := .playing, currentStep := 3 }) :=
  ⟨⟨by decide, by decide⟩,
    step_forward_play_error_conditions demoSim _ (by decide) (by decide)⟩

/-- An autoplay run over a one-step trace: play, then two ticker firings. -/
def autoplayEnd : Engine :=
  tick demoSim (tick demoSim (Play { demoEngine with steps := [demoStep 0] }).1)

/--
C8 (counterexample to the claim as stated).  Autoplay that reaches the
last step does not end in `paused`: every successful auto-advance goes
through `StepForward`, which unconditionally sets the mode to `step`, so
when the end-of-trace tick later calls `Pause`, the `mode == playing`
guard fails and the engine is left in `step` mode.
-/
theorem autoplay_end_counterexample :
    (Play { demoEngine with steps := [demoStep 0] }).1.mode = .playing ∧
    autoplayEnd.mode = .step ∧
    autoplayEnd.mode ≠ .paused ∧
    autoplayEnd.currentStep = 0 := by decide

/--
C8 (amended).  When the ticker fires with the cursor at the last step,
the engine stops advancing: it transitions to `paused` only if the mode
is still `playing` (i.e. no auto-advance succeeded since `play()`;
otherwise it stays in `step` mode), and the cursor never moves past
`len(trace) - 1` nor wraps back.
-/
theorem autoplay_tick_amended (sim : Nat → StepResult) (e : Engine)
    (hne : e.steps ≠ []) (hhi : e.currentStep < (e.steps.length : Int)) :
    (e.currentStep = (e.steps.length : Int) - 1 →
      tick sim e = Pause e ∧
      (tick sim e).currentStep = e.currentStep ∧
      (tick sim e).mode = (if e.mode = .playing then .paused else e.mode)) ∧
    (e.currentStep < (e.steps.length : Int) - 1 →
      (tick sim e).currentStep = e.currentStep + 1 ∧ (tick sim e).mode = .step) ∧
    (tick sim e).currentStep ≤ (e.steps.length : Int) - 1 ∧
    e.currentStep ≤ (tick sim e).currentStep := by
  have hlen0 : ¬ e.steps.length = 0 := by simpa using hne
  by_cases hend : (e.steps.length : Int) ≤ e.currentStep + 1
  · have htick : tick sim e = Pause e := by
      simp only [tick, StepForward, if_neg hlen0, if_pos hend]
    have hpause_cur : (Pause e).currentStep = e.currentStep := by
      simp only [Pause]
      split <;> rfl
    have hpause_mode : (Pause e).mode = (if e.mode = .playing then .paused else e.mode) := by
      simp only [Pause]
      by_cases h : e.mode = .playing
      · rw [if_pos h, if_pos h]
      · rw [if_neg h, if_neg h]
    refine ⟨fun _ => ⟨htick, by rw [htick, hpause_cur], by rw [htick, hpause_mode]⟩,
      fun hlt => absurd hlt (by omega), ?_, ?_⟩
    · rw [htick, hpause_cur]
      omega
    · rw [htick, hpause_cur]
  · have htick : tick sim e =
        { e with currentStep := e.currentStep + 1,
                 history := e.history ++ [sim (e.currentStep + 1).toNat],
                 mode := .step } := by
      simp only [tick, StepForward, if_neg hlen0, if_neg hend]
    refine ⟨fun heq => absurd heq (by omega), fun _ => ⟨by rw [htick], by rw [htick]⟩, ?_, ?_⟩
    · rw [htick]
      simp only []
      omega
    · rw [htick]
      simp only []
      omega

/-- Witness for `autoplay_tick_amended`: the demo engine playing at its
last step turns paused without moving the cursor. -/
theorem autoplay_tick_amended_witness :
    (({ demoEngine with mode := .playing, currentStep := 3 } : Engine).steps ≠ [] ∧
      ({ demoEngine with mode := .playing, currentStep := 3 } : Engine).currentStep <
        (({ demoEngine with mode := .playing, currentStep := 3 } : Engine).steps.length : Int)) ∧
    (tick demoSim { demoEngine with mode := .playing, currentStep := 3 }).currentStep ≤
        (({ demoEngine with mode := .playing, currentStep := 3 } : Engine).steps.length : Int) - 1 ∧
    ({ demoEngine with mode := .playing, currentStep := 3 } : Engine).currentStep ≤
      (tick demoSim { demoEngine with mode := .playing, currentStep := 3 }).currentStep :=
  ⟨⟨by decide, by decide⟩,
    ((autoplay_tick_amended demoSim _ (by decide) (by decide)).2.2.1),
    ((autoplay_tick_amended demoSim _ (by decide) (by decide)).2.2.2)⟩

/--
C9 (counterexample to the claim as stated).  The claim says a new speed
takes effect on the next scheduled autoplay tick.  After `Play` at speed
1 the running ticker period is 1s; `SetSpeed 10` stores the clamped speed
4.0 but `playLoop` computed its ticker interval once before the loop, so
the running ticker keeps the 1s period instead of `1s / 4`.
-/
theorem set_speed_ticker_counterexample :
    (SetSpeed (Play demoEngine).1 10).speed = 4 ∧
    (SetSpeed (Play demoEngine).1 10).tickerInterval = some 1 ∧
    (1 : ℚ) ≠ 1 / 4 := by
  have hplay : (Play demoEngine).1 =
      { demoEngine with mode := .playing, tickerInterval := some (1 / 1) } := by
    simp only [Play, demoEngine, demoSteps]
    norm_num
    rfl
  rw [hplay]
  refine ⟨?_, ?_, by norm_num⟩
  · simp only [SetSpeed]
    norm_num
  · simp only [SetSpeed]
    norm_num

/--
C9 (amended).  `SetSpeed f` stores exactly `f` clamped to `[0.25, 4.0]`
(in particular 10.0 clamps to 4.0 and 0.01 to 0.25) in every mode and
touches nothing else; the period of an already-running autoplay ticker is
unchanged, and the clamped speed takes effect when autoplay is next
started via `Play`.
-/
theorem set_speed_clamp_amended (e : Engine) (f : ℚ) :
    (SetSpeed e f).speed = max (1 / 4) (min 4 f) ∧
    (SetSpeed e f).tickerInterval = e.tickerInterval ∧
    (SetSpeed e f).mode = e.mode ∧
    (SetSpeed e f).currentStep = e.currentStep ∧
    (SetSpeed e f).history = e.history ∧
    (SetSpeed e f).steps = e.steps ∧
    (SetSpeed e 10).speed = 4 ∧
    (SetSpeed e (1 / 100)).speed = 1 / 4 ∧
    (e.mode ≠ .playing → e.steps ≠ [] →
      (Play (SetSpeed e f)).1.tickerInterval = some (1 / max (1 / 4) (min 4 f))) := by
  have hclamp : ∀ g : ℚ, (SetSpeed e g).speed = max (1 / 4) (min 4 g) := by
    intro g
    simp only [SetSpeed]
    by_cases h1 : g < 1 / 4
    · rw [if_pos h1, if_neg (by norm_num)]
      rw [min_eq_right (by linarith), max_eq_left (by linarith)]
    · rw [if_neg h1]
      by_cases h2 : 4 < g
      · rw [if_pos h2]
        rw [min_eq_left (by linarith), max_eq_right (by norm_num)]
      · rw [if_neg h2]
        rw [min_eq_right (by linarith), max_eq_right (by linarith)]
  refine ⟨hclamp f, rfl, rfl, rfl, rfl, rfl, ?_, ?_, ?_⟩
  · rw [hclamp 10]
    norm_num
  · rw [hclamp (1 / 100)]
    norm_num
  · intro hmode hsteps
    have hlen0 : ¬ (SetSpeed e f).steps.length = 0 := by
      simpa using hsteps
    have hmode' : ¬ (SetSpeed e f).mode = .playing := hmode
    simp only [Play, if_neg hmode', if_neg hlen0]
    rw [hclamp f]

/-- Witness for `set_speed_clamp_amended` at the demo engine and factor 10. -/
theorem set_speed_clamp_amended_witness :
    (SetSpeed demoEngine 10).speed = max (1 / 4) (min 4 10) ∧
    (SetSpeed demoEngine 10).tickerInterval = demoEngine.tickerInterval ∧
    (demoEngine.mode ≠ .playing → demoEngine.steps ≠ [] →
      (Play (SetSpeed demoEngine 10)).1.tickerInterval = some (1 / max (1 / 4) (min 4 10))) :=
  ⟨(set_speed_clamp_amended demoEngine 10).1,
   (set_speed_clamp_amended demoEngine 10).2.1,
   (set_speed_clamp_amended demoEngine 10).2.2.2.2.2.2.2.2⟩

end EngineSpec

namespace MvccSpec

/-- `TransactionStatus`. -/
inductive TxStatus where
  | active
  | committed
  | aborted
deriving DecidableEq

/-- `Transaction`.  Go's string ids `tx-N` are represented by their
sequence number `N`. -/
structure Transaction where
  id : Nat
  startTime : Int
  commitTime : Option Int
  status : TxStatus
  readSet : List String
  writeSet : List String
deriving DecidableEq

/-- `Version`.  Go's string ids `ver-N` are represented by their sequence
number `N`; the free-form payload map is carried as plain pairs. -/
structure Version where
  id : Nat
  rowId : String
  data : List (String × String)
  createdBy : Nat
  createdAt : Int
  deletedBy : Option Nat
  deletedAt : Option Int
  prev : Option Nat
deriving DecidableEq

/-- `Row`: version chain newest first; `CurrentVersion == ""` is `none`. -/
structure Row where
  id : String
  currentVersion : Option Nat
  versionChain : List Nat
deriving DecidableEq

/-- `MVCCStore`.  The Go maps are represented as association lists with
duplicate-free keys; iteration-order-dependent behavior is noted where it
matters (it never changes the per-key results the claims are about). -/
structure MVCCStore where
  transactions : List (Nat × Transaction)
  versions : List (Nat × Version)
  rows : List (String × Row)
  globalTimestamp : Int
  activeTransaction : Option Nat
  txSeq : Nat
  verSeq : Nat
deriving DecidableEq

/-- Association-list lookup (Go map read). -/
def alookup {α β : Type} [DecidableEq α] : List (α × β) → α → Option β
  | [], _ => none
  | (k, v) :: rest, k' => if k = k' then some v else alookup rest k'

/-- Association-list write (Go map assignment): replace the binding if the
key is present, otherwise add it. -/
def aupsert {α β : Type} [DecidableEq α] : List (α × β) → α → β → List (α × β)
  | [], k, v => [(k, v)]
  | (k₀, v₀) :: rest, k, v =>
    if k₀ = k then (k, v) :: rest else (k₀, v₀) :: aupsert rest k v

/-- Association-list delete (Go `delete`). -/
def aerase {α β : Type} [DecidableEq α] : List (α × β) → α → List (α × β)
  | [], _ => []
  | (k₀, v₀) :: rest, k =>
    if k₀ = k then aerase rest k else (k₀, v₀) :: aerase rest k

/-- The `fmt.Errorf` failures of the store operations. -/
inductive MvccError where
  | txNotFound
  | txNotActive
  | rowNotFound
  | noVisibleVersion
deriving DecidableEq

/-- Mirrors `NewMVCCStore`. -/
def NewMVCCStore : MVCCStore :=
  { transactions := [], versions := [], rows := [], globalTimestamp := 1,
    activeTransaction := none, txSeq := 0, verSeq := 0 }

/-- Mirrors `BeginTransaction`. -/
def BeginTransaction (s : MVCCStore) : MVCCStore × Transaction :=
  let txID := s.txSeq + 1
  let tx : Transaction :=
    { id := txID, startTime := s.globalTimestamp, commitTime := none,
      status := .active, readSet := [], writeSet := [] }
  ({ s with txSeq := txID, transactions := aupsert s.transactions txID tx,
            activeTransaction := some txID }, tx)

/--
Mirrors `isVisible`: a version is visible to `tx` iff it was created by
`tx` itself, or its creator is committed with commit-timestamp at most
`tx.StartTime` and it is not deleted by a transaction that is committed
with commit-timestamp at most `tx.StartTime`.  The Go code dereferences
`s.Transactions[...]` unconditionally; the `none` branches stand for
lookups that cannot fail in reachable stores (creators and deleters are
always registered, and a committed deleter always carries a commit time).
-/
def isVisible (s : MVCCStore) (tx : Transaction) (ver : Version) : Bool :=
  if ver.createdBy = tx.id then true
  else
    match alookup s.transactions ver.createdBy with
    | none => false
    | some creatorTx =>
      if creatorTx.status ≠ .committed then false
      else
        match creatorTx.commitTime with
        | none => false
        | some ct =>
          if tx.startTime < ct then false
          else
            match ver.deletedBy, ver.deletedAt with
            | some dId, some _ =>
              (match alookup s.transactions dId with
               | none => true
               | some deleterTx =>
                 match deleterTx.commitTime with
                 | some dct =>
                   if deleterTx.status = .committed ∧ dct ≤ tx.startTime then false else true
                 | none => true)
            | _, _ => true

/-- Mirrors `Read`: find the first visible version on the newest-first
chain, recording the row in the read set on success. -/
def Read (s : MVCCStore) (txID : Nat) (rowID : String) :
    MVCCStore × Except MvccError Version :=
  match alookup s.transactions txID with
  | none => (s, .error .txNotFound)
  | some tx =>
    if tx.status ≠ .active then (s, .error .txNotActive)
    else
      match alookup s.rows rowID with
      | none => (s, .error .rowNotFound)
      | some row =>
        match row.versionChain.findSome? (fun verID =>
          match alookup s.versions verID with
          | some ver => if isVisible s tx ver then some ver else none
          | none => none) with
        | some ver =>
          let tx' := { tx with readSet := tx.readSet ++ [rowID] }
          ({ s with transactions := aupsert s.transactions txID tx' }, .ok ver)
        | none => (s, .error .noVisibleVersion)

/-- Mirrors `Write`: allocate a fresh version id, prepend the version to
the row's chain (creating the row when absent), link the previous head,
and record the row in the write set. -/
def Write (s : MVCCStore) (txID : Nat) (rowID : String) (data : List (String × String)) :
    MVCCStore × Except MvccError Version :=
  match alookup s.transactions txID with
  | none => (s, .error .txNotFound)
  | some tx =>
    if tx.status ≠ .active then (s, .error .txNotActive)
    else
      let verID := s.verSeq + 1
      let row :=
        match alookup s.rows rowID with
        | some row => row
        | none => { id := rowID, currentVersion := none, versionChain := [] }
      let version : Version :=
        { id := verID, rowId := rowID, data := data, createdBy := txID,
          createdAt := s.globalTimestamp, deletedBy := none, deletedAt := none,
          prev := row.versionChain.head? }
      let row' :=
        { row with versionChain := verID :: row.versionChain, currentVersion := some verID }
      let tx' := { tx with writeSet := tx.writeSet ++ [rowID] }
      ({ s with verSeq := verID,
                versions := aupsert s.versions verID version,
                rows := aupsert s.rows rowID row',
                transactions := aupsert s.transactions txID tx' }, .ok version)

/-- Mirrors `Delete`: tombstone the chain head (if any) with the deleting
transaction and the current clock, and record the row in the write set. -/
def Delete (s : MVCCStore) (txID : Nat) (rowID : String) : MVCCStore × Option MvccError :=
  match alookup s.transactions txID with
  | none => (s, some .txNotFound)
  | some tx =>
    if tx.status ≠ .active then (s, some .txNotActive)
    else
      match alookup s.rows rowID with
      | none => (s, some .rowNotFound)
      | some row =>
        let versions' :=
          match row.versionChain.head? with
          | some headID =>
            (match alookup s.versions headID with
             | some ver =>
               aupsert s.versions headID
                 { ver with deletedBy := some txID, deletedAt := some s.globalTimestamp }
             | none => s.versions)
          | none => s.versions
        let tx' := { tx with writeSet := tx.writeSet ++ [rowID] }
        ({ s with versions := versions',
                  transactions := aupsert s.transactions txID tx' }, none)

/-- Mirrors `Commit`: advance the global clock, stamp the commit time,
mark committed, and clear the active-transaction pointer if it matches. -/
def Commit (s : MVCCStore) (txID : Nat) : MVCCStore × Option MvccError :=
  match alookup s.transactions txID with
  | none => (s, some .txNotFound)
  | some tx =>
    if tx.status ≠ .active then (s, some .txNotActive)
    else
      let gts := s.globalTimestamp + 1
      let tx' := { tx with commitTime := some gts, status := .committed }
      let act := if s.activeTransaction = some txID then none else s.activeTransaction
      ({ s with globalTimestamp := gts,
                transactions := aupsert s.transactions txID tx',
                activeTransaction := act }, none)

/-- The per-row loop body of `Abort`: strip from the chain every version
created by the aborting transaction, deleting those versions from the
version map as they are encountered. -/
def abortChain (txID : Nat) : List Nat → List (Nat × Version) → List Nat × List (Nat × Version)
  | [], versions => ([], versions)
  | verID :: rest, versions =>
    match alookup versions verID with
    | some ver =>
      if ver.createdBy = txID then
        abortChain txID rest (aerase versions verID)
      else
        let res := abortChain txID rest versions
        (verID :: res.1, res.2)
    | none =>
      let res := abortChain txID rest versions
      (verID :: res.1, res.2)

/-- The write-set loop body of `Abort` for one row id: strip the aborting
transaction's versions from the row's chain; drop the row entirely when
the chain becomes empty, else repoint `CurrentVersion` at the new head.
(A write-set row missing from the map — impossible in reachable stores,
where Go would panic — is skipped.) -/
def abortRowStep (txID : Nat) (acc : List (String × Row) × List (Nat × Version))
    (rowID : String) : List (String × Row) × List (Nat × Version) :=
  match alookup acc.1 rowID with
  | none => acc
  | some row =>
    let res := abortChain txID row.versionChain acc.2
    match res.1 with
    | [] => (aerase acc.1 rowID, res.2)
    | h :: t =>
      (aupsert acc.1 rowID
        { row with versionChain := h :: t, currentVersion := some h }, res.2)

/-- Mirrors `Abort`: mark the transaction aborted, then run the write-set
loop over the rows it touched. -/
def Abort (s : MVCCStore) (txID : Nat) : MVCCStore × Option MvccError :=
  match alookup s.transactions txID with
  | none => (s, some .txNotFound)
  | some tx =>
    if tx.status ≠ .active then (s, some .txNotActive)
    else
      let tx' := { tx with status := .aborted }
      let final := tx.writeSet.foldl (abortRowStep txID) (s.rows, s.versions)
      let act := if s.activeTransaction = some txID then none else s.activeTransaction
      ({ s with transactions := aupsert s.transactions txID tx',
                rows := final.1, versions := final.2, activeTransaction := act }, none)

/-- Mirrors the threshold computation at the top of `GarbageCollect`: the
oldest start-timestamp among active transactions, seeded with the global
clock.  (The Go map iteration order does not affect a minimum.) -/
def oldestActiveStart (s : MVCCStore) : Int :=
  s.transactions.foldl
    (fun acc p => if p.2.status = .active ∧ p.2.startTime < acc then p.2.startTime else acc)
    s.globalTimestamp

/--
The per-row scan of `GarbageCollect`: walk the chain newest first with
the `foundVisible` flag; a version whose creator is committed (with a
commit time) strictly before the threshold is dropped once the flag is
set; a kept committed version sets the flag.  Returns the updated version
map, the new chain, and the removed ids in scan order.
-/
def gcChain (txs : List (Nat × Transaction)) (oldest : Int) :
    List Nat → Bool → List (Nat × Version) →
    List (Nat × Version) × List Nat × List Nat
  | [], _, versions => (versions, [], [])
  | verID :: rest, found, versions =>
    match alookup versions verID with
    | none =>
      let res := gcChain txs oldest rest found versions
      (res.1, verID :: res.2.1, res.2.2)
    | some ver =>
      match alookup txs ver.createdBy with
      | none =>
        let res := gcChain txs oldest rest found versions
        (res.1, verID :: res.2.1, res.2.2)
      | some creatorTx =>
        match creatorTx.commitTime with
        | some ct =>
          if creatorTx.status = .committed then
            if ct < oldest ∧ found then
              let res := gcChain txs oldest rest found (aerase versions verID)
              (res.1, res.2.1, verID :: res.2.2)
            else
              let res := gcChain txs oldest rest true versions
              (res.1, verID :: res.2.1, res.2.2)
          else
            let res := gcChain txs oldest rest found versions
            (res.1, verID :: res.2.1, res.2.2)
        | none =>
          let res := gcChain txs oldest rest found versions
          (res.1, verID :: res.2.1, res.2.2)

/-- The row loop of `GarbageCollect`, threading the version map through
the per-row scans.  (Chains of distinct rows are disjoint in reachable
stores, so the Go map iteration order does not affect any row's result.) -/
def gcRows (txs : List (Nat × Transaction)) (oldest : Int) :
    List (String × Row) → List (Nat × Version) →
    List (String × Row) × List (Nat × Version) × List Nat
  | [], versions => ([], versions, [])
  | (rowID, row) :: rest, versions =>
    let res := gcChain txs oldest row.versionChain false versions
    let rest' := gcRows txs oldest rest res.1
    ((rowID, { row with versionChain := res.2.1 }) :: rest'.1, rest'.2.1,
      res.2.2 ++ rest'.2.2)

/-- Mirrors `GarbageCollect`, returning the new store and the removed
version ids. -/
def GarbageCollect (s : MVCCStore) : MVCCStore × List Nat :=
  let oldest := oldestActiveStart s
  let res := gcRows s.transactions oldest s.rows s.versions
  ({ s with rows := res.1, versions := res.2.1 }, res.2.2)

/-- The reachable states of an `MVCCStore`: everything obtainable from
`NewMVCCStore` by the exported operations (with arbitrary arguments). -/
inductive Reachable : MVCCStore → Prop where
  | init : Reachable NewMVCCStore
  | begin (s : MVCCStore) (h : Reachable s) : Reachable (BeginTransaction s).1
  | read (s : MVCCStore) (txID : Nat) (rowID : String) (h : Reachable s) :
      Reachable (Read s txID rowID).1
  | write (s : MVCCStore) (txID : Nat) (rowID : String) (data : List (String × String))
      (h : Reachable s) : Reachable (Write s txID rowID data).1
  | del (s : MVCCStore) (txID : Nat) (rowID : String) (h : Reachable s) :
      Reachable (Delete s txID rowID).1
  | commit (s : MVCCStore) (txID : Nat) (h : Reachable s) : Reachable (Commit s txID).1
  | abort (s : MVCCStore) (txID : Nat) (h : Reachable s) : Reachable (Abort s txID).1
  | gc (s : MVCCStore) (h : Reachable s) : Reachable (GarbageCollect s).1

/-- The scenario-C store: `begin tx1; write tx1 users:1; commit tx1;
begin tx2` — transaction 1 committed (commit time 2) before transaction 2
began (start time 2). -/
def scenC : MVCCStore :=
  (BeginTransaction
    (Commit (Write (BeginTransaction NewMVCCStore).1 1 "users:1" [("name", "A")]).1 1).1).1

/-- A store with one written row, used as a concrete reachable state. -/
def demoStore : MVCCStore :=
  (Write (BeginTransaction NewMVCCStore).1 1 "users:1" [("name", "A")]).1

/-- The garbage-collection counterexample store: version 1 of row `r`
was committed at time 2; the reader transaction 3 is still active with
start time 3; version 2 shadows it, committed at time 4 (after the
reader's snapshot). -/
def c3Store : MVCCStore :=
  let s1 := (BeginTransaction NewMVCCStore).1
  let s2 := (Write s1 1 "r" [("v", "1")]).1
  let s3 := (Commit s2 1).1
  let s4 := (BeginTransaction s3).1
  let s5 := (Commit s4 2).1
  let s6 := (BeginTransaction s5).1
  let s7 := (BeginTransaction s6).1
  let s8 := (Write s7 4 "r" [("v", "2")]).1
  (Commit s8 4).1

lemma alookup_aupsert {α β : Type} [DecidableEq α] (m : List (α × β)) (k k' : α) (v : β) :
    alookup (aupsert m k v) k' = if k = k' then some v else alookup m k' := by
  induction m with
  | nil => simp [aupsert, alookup]
  | cons p rest ih =>
    obtain ⟨k₀, v₀⟩ := p
    simp only [aupsert]
    by_cases h0 : k₀ = k
    · subst h0
      by_cases h1 : k₀ = k'
      · subst h1
        simp [alookup]
      · simp [alookup, h1]
    · rw [if_neg h0]
      by_cases h1 : k₀ = k'
      · subst h1
        rw [alookup, if_pos rfl, alookup, if_pos rfl, if_neg (fun hh => h0 hh.symm)]
      · rw [alookup, if_neg h1, alookup, if_neg h1, ih]

lemma alookup_aerase {α β : Type} [DecidableEq α] (m : List (α × β)) (k k' : α) :
    alookup (aerase m k) k' = if k = k' then none else alookup m k' := by
  induction m with
  | nil => simp [aerase, alookup]
  | cons p rest ih =>
    obtain ⟨k₀, v₀⟩ := p
    simp only [aerase]
    by_cases h0 : k₀ = k
    · subst h0
      rw [if_pos rfl, ih]
      by_cases h1 : k₀ = k'
      · subst h1
        simp [alookup]
      · simp [alookup, h1]
    · rw [if_neg h0]
      by_cases h1 : k₀ = k'
      · subst h1
        rw [alookup, if_pos rfl, if_neg (fun hh => h0 hh.symm), alookup, if_pos rfl]
      · rw [alookup, if_neg h1, ih, alookup, if_neg h1]

/--
C2.  Snapshot-isolation visibility, exactly as `isVisible` decides it:
(a) a version written by a transaction `t1` that committed with
commit-timestamp at most `t2`'s start — and that is not deleted by any
transaction committed with commit-timestamp at most `t2`'s start — is
visible to `t2`; (b) a version whose creator has not committed is
visible to a transaction exactly when that transaction is its creator.
-/
theorem visibility_correct (s : MVCCStore) (t2 : Transaction) (ver : Version)
    (t1 : Transaction) (hcreator : alookup s.transactions ver.createdBy = some t1) :
    (∀ c, t1.status = .committed → t1.commitTime = some c → c ≤ t2.startTime →
      (∀ dId, ver.deletedBy = some dId → ∀ d, alookup s.transactions dId = some d →
        d.status = .committed → ∀ dc, d.commitTime = some dc → ¬ dc ≤ t2.startTime) →
      isVisible s t2 ver = true) ∧
    (t1.status ≠ .committed → (isVisible s t2 ver = true ↔ ver.createdBy = t2.id)) := by
  constructor
  · intro c hst hct hle hdel
    by_cases hown : ver.createdBy = t2.id
    · simp only [isVisible, if_pos hown]
    · simp only [isVisible, if_neg hown, hcreator, hct, hst]
      rw [if_neg (by simp)]
      rw [if_neg (by omega)]
      rcases hdb : ver.deletedBy with _ | dId
      · simp
      · rcases hda : ver.deletedAt with _ | dAt
        · simp
        · simp only []
          rcases hdl : alookup s.transactions dId with _ | d
          · simp
          · rcases hdct : d.commitTime with _ | dct
            · simp [hdct]
            · simp only [hdct]
              rw [if_neg]
              rintro ⟨hdcomm, hdle⟩
              exact hdel dId hdb d hdl hdcomm dct hdct hdle
  · intro hst
    by_cases hown : ver.createdBy = t2.id
    · simp only [isVisible, if_pos hown]
      simp [hown]
    · simp only [isVisible, if_neg hown, hcreator]
      rw [if_pos hst]
      simp [hown]

/-- Witness for `visibility_correct`: in `scenC`, transaction 1 committed
(commit time 2) before transaction 2 began (start time 2), and its
version of `users:1` is visible to transaction 2. -/
theorem visibility_correct_witness :
    (alookup scenC.transactions
        (⟨1, "users:1", [("name", "A")], 1, 1, none, none, none⟩ : Version).createdBy =
      some ⟨1, 1, some 2, .committed, [], ["users:1"]⟩) ∧
    isVisible scenC ⟨2, 2, none, .active, [], []⟩
      ⟨1, "users:1", [("name", "A")], 1, 1, none, none, none⟩ = true :=
  ⟨by decide,
    (visibility_correct scenC ⟨2, 2, none, .active, [], []⟩
        ⟨1, "users:1", [("name", "A")], 1, 1, none, none, none⟩
        ⟨1, 1, some 2, .committed, [], ["users:1"]⟩ (by decide)).1
      2 rfl rfl (by decide) (fun dId hd => nomatch hd)⟩

/-- The single-row invariant of C10. -/
def RowInvP (row : Row) : Prop :=
  row.versionChain ≠ [] ∧ row.currentVersion = row.versionChain.head?

lemma Begin_rows (s : MVCCStore) : (BeginTransaction s).1.rows = s.rows := rfl

lemma Read_rows (s : MVCCStore) (txID : Nat) (rowID : String) :
    (Read s txID rowID).1.rows = s.rows := by
  simp only [Read]
  split
  · rfl
  · split
    · rfl
    · split
      · rfl
      · split
        · rfl
        · rfl

lemma Delete_rows (s : MVCCStore) (txID : Nat) (rowID : String) :
    (Delete s txID rowID).1.rows = s.rows := by
  simp only [Delete]
  split
  · rfl
  · split
    · rfl
    · split
      · rfl
      · rfl

lemma Commit_rows (s : MVCCStore) (txID : Nat) : (Commit s txID).1.rows = s.rows := by
  simp only [Commit]
  split
  · rfl
  · split
    · rfl
    · rfl

lemma Write_inv {s : MVCCStore} (txID : Nat) (rowID : String) (data : List (String × String))
    (h : ∀ rid row, alookup s.rows rid = some row → RowInvP row) :
    ∀ rid row, alookup (Write s txID rowID data).1.rows rid = some row → RowInvP row := by
  simp only [Write]
  split
  · exact h
  · split
    · exact h
    · intro rid row hrow
      simp only [] at hrow
      rw [alookup_aupsert] at hrow
      by_cases he : rowID = rid
      · rw [if_pos he] at hrow
        obtain rfl : _ = row := Option.some.inj hrow
        exact ⟨by simp, by simp⟩
      · rw [if_neg he] at hrow
        exact h rid row hrow

lemma abortRowStep_inv {acc : List (String × Row) × List (Nat × Version)} (txID : Nat)
    (rowID : String) (h : ∀ rid row, alookup acc.1 rid = some row → RowInvP row) :
    ∀ rid row, alookup (abortRowStep txID acc rowID).1 rid = some row → RowInvP row := by
  simp only [abortRowStep]
  split
  · exact h
  · split
    · intro rid row hrow
      simp only [] at hrow
      rw [alookup_aerase] at hrow
      by_cases he : rowID = rid
      · rw [if_pos he] at hrow
        exact absurd hrow (by simp)
      · rw [if_neg he] at hrow
        exact h rid row hrow
    · intro rid row hrow
      simp only [] at hrow
      rw [alookup_aupsert] at hrow
      by_cases he : rowID = rid
      · rw [if_pos he] at hrow
        obtain rfl : _ = row := Option.some.inj hrow
        exact ⟨by simp, by simp⟩
      · rw [if_neg he] at hrow
        exact h rid row hrow

lemma abortFold_inv (txID : Nat) :
    ∀ (ws : List String) (acc : List (String × Row) × List (Nat × Version)),
      (∀ rid row, alookup acc.1 rid = some row → RowInvP row) →
      ∀ rid row, alookup (ws.foldl (abortRowStep txID) acc).1 rid = some row → RowInvP row := by
  intro ws
  induction ws with
  | nil => exact fun acc h => h
  | cons w ws ih =>
    intro acc h
    exact ih _ (abortRowStep_inv txID w h)

lemma Abort_inv {s : MVCCStore} (txID : Nat)
    (h : ∀ rid row, alookup s.rows rid = some row → RowInvP row) :
    ∀ rid row, alookup (Abort s txID).1.rows rid = some row → RowInvP row := by
  simp only [Abort]
  split
  · exact h
  · split
    · exact h
    · exact abortFold_inv txID _ (s.rows, s.versions) h

lemma gcChain_cons_keeps (txs : List (Nat × Transaction)) (oldest : Int) (verID : Nat)
    (rest : List Nat) (versions : List (Nat × Version)) :
    ∃ tail, (gcChain txs oldest (verID :: rest) false versions).2.1 = verID :: tail := by
  simp only [gcChain]
  split
  · exact ⟨_, rfl⟩
  · split
    · exact ⟨_, rfl⟩
    · split
      · split
        · rw [if_neg (by simp)]
          exact ⟨_, rfl⟩
        · exact ⟨_, rfl⟩
      · exact ⟨_, rfl⟩

lemma gcRows_lookup (txs : List (Nat × Transaction)) (oldest : Int) :
    ∀ (rows : List (String × Row)) (versions : List (Nat × Version)) (rid : String)
      (row' : Row),
      alookup (gcRows txs oldest rows versions).1 rid = some row' →
      ∃ row, alookup rows rid = some row ∧
        row'.currentVersion = row.currentVersion ∧
        row'.versionChain.head? = row.versionChain.head? ∧
        (row.versionChain ≠ [] → row'.versionChain ≠ []) := by
  intro rows
  induction rows with
  | nil =>
    intro versions rid row' h
    simp [gcRows, alookup] at h
  | cons p rest ih =>
    intro versions rid row' h
    obtain ⟨rowID, row⟩ := p
    simp only [gcRows, alookup] at h
    by_cases he : rowID = rid
    · rw [if_pos he] at h
      obtain rfl : _ = row' := Option.some.inj h
      refine ⟨row, by rw [alookup, if_pos he], rfl, ?_, ?_⟩
      · cases hchain : row.versionChain with
        | nil => simp [hchain, gcChain]
        | cons v vs =>
          obtain ⟨tail, htail⟩ := gcChain_cons_keeps txs oldest v vs versions
          simp [htail]
      · intro hne
        cases hchain : row.versionChain with
        | nil => exact absurd hchain hne
        | cons v vs =>
          obtain ⟨tail, htail⟩ := gcChain_cons_keeps txs oldest v vs versions
          simp [htail]
    · rw [if_neg he] at h
      obtain ⟨r, hr, h1, h2, h3⟩ := ih _ rid row' h
      exact ⟨r, by rw [alookup, if_neg he]; exact hr, h1, h2, h3⟩

lemma GC_inv {s : MVCCStore}
    (h : ∀ rid row, alookup s.rows rid = some row → RowInvP row) :
    ∀ rid row, alookup (GarbageCollect s).1.rows rid = some row → RowInvP row := by
  intro rid row' hrow
  simp only [GarbageCollect] at hrow
  obtain ⟨row, hr, h1, h2, h3⟩ := gcRows_lookup s.transactions (oldestActiveStart s)
    s.rows s.versions rid row' hrow
  obtain ⟨hne, hcv⟩ := h rid row hr
  exact ⟨h3 hne, by rw [h1, hcv, h2]⟩

/--
C10.  In every reachable store state, every present row has a non-empty
version chain whose first (newest) element is `CurrentVersion`; the
invariant is preserved by every operation, with `Abort` removing the row
when its chain would become empty and `GarbageCollect` always retaining
the chain head.
-/
theorem row_chain_invariant (s : MVCCStore) (hreach : Reachable s) :
    ∀ rid row, alookup s.rows rid = some row →
      row.versionChain ≠ [] ∧ row.currentVersion = row.versionChain.head? := by
  induction hreach with
  | init =>
    intro rid row h
    simp [NewMVCCStore, alookup] at h
  | begin s _ ih =>
    intro rid row h
    rw [Begin_rows] at h
    exact ih rid row h
  | read s txID rowID _ ih =>
    intro rid row h
    rw [Read_rows] at h
    exact ih rid row h
  | write s txID rowID data _ ih =>
    exact Write_inv txID rowID data ih
  | del s txID rowID _ ih =>
    intro rid row h
    rw [Delete_rows] at h
    exact ih rid row h
  | commit s txID _ ih =>
    intro rid row h
    rw [Commit_rows] at h
    exact ih rid row h
  | abort s txID _ ih =>
    exact Abort_inv txID ih
  | gc s _ ih =>
    exact GC_inv ih

/--
C3 (counterexample to the claim as stated).  In `c3Store` (a state built
by the exported operations), transaction 3 is active at `GarbageCollect`
time with start-timestamp 3 and could read version 1 of row `r` before
the collection; `GarbageCollect` removes exactly version 1 (its creator
committed at 2, strictly before the threshold 3, and the newer committed
version 2 was kept first); but version 2 committed at 4, after the
reader's snapshot, so after the collection no version of `r` is visible
to transaction 3 — the claimed consequence ("at least one version
visible to every active transaction survives") fails.
-/
theorem gc_claim_counterexample :
    (alookup c3Store.transactions 3).map (fun t => t.status) = some .active ∧
    (alookup c3Store.transactions 3).map (fun t => t.startTime) = some 3 ∧
    (Read c3Store 3 "r").2 = .ok ⟨1, "r", [("v", "1")], 1, 1, none, none, none⟩ ∧
    (GarbageCollect c3Store).2 = [1] ∧
    (Read (GarbageCollect c3Store).1 3 "r").2 = .error .noVisibleVersion := by decide

/-- A version id whose version record exists and whose creator is
committed with a recorded commit time (what the scan's `foundVisible`
flag actually tracks). -/
def CommittedCreator (txs : List (Nat × Transaction)) (versions : List (Nat × Version))
    (verID : Nat) : Prop :=
  ∃ ver, alookup versions verID = some ver ∧
    ∃ ctx, alookup txs ver.createdBy = some ctx ∧
      ctx.status = .committed ∧ ctx.commitTime.isSome

/-- A version id whose creator committed strictly before the retention
threshold. -/
def RemovableAt (txs : List (Nat × Transaction)) (versions : List (Nat × Version))
    (oldest : Int) (verID : Nat) : Prop :=
  ∃ ver, alookup versions verID = some ver ∧
    ∃ ctx, alookup txs ver.createdBy = some ctx ∧
      ctx.status = .committed ∧ ∃ ct, ctx.commitTime = some ct ∧ ct < oldest

lemma removableAt_congr {txs : List (Nat × Transaction)} {v1 v2 : List (Nat × Version)}
    {oldest : Int} {verID : Nat} (h : alookup v1 verID = alookup v2 verID) :
    RemovableAt txs v1 oldest verID ↔ RemovableAt txs v2 oldest verID := by
  unfold RemovableAt
  rw [h]

lemma committedCreator_congr {txs : List (Nat × Transaction)} {v1 v2 : List (Nat × Version)}
    {verID : Nat} (h : alookup v1 verID = alookup v2 verID) :
    CommittedCreator txs v1 verID ↔ CommittedCreator txs v2 verID := by
  unfold CommittedCreator
  rw [h]

lemma alookup_aerase_ne {α β : Type} [DecidableEq α] {m : List (α × β)} {x v : α}
    (h : v ≠ x) : alookup (aerase m x) v = alookup m v := by
  rw [alookup_aerase, if_neg (fun hh => h hh.symm)]

/-- Decomposing `a :: rest = pre ++ v :: post` through the head. -/
lemma decomp_cons {α : Type} {a v : α} {rest : List α} (P : List α → Prop) :
    (∃ pre post, a :: rest = pre ++ v :: post ∧ P pre) ↔
      ((v = a ∧ P []) ∨ ∃ pre post, rest = pre ++ v :: post ∧ P (a :: pre)) := by
  constructor
  · rintro ⟨pre, post, heq, hP⟩
    cases pre with
    | nil =>
      simp only [List.nil_append, List.cons.injEq] at heq
      exact Or.inl ⟨heq.1.symm, hP⟩
    | cons b pre' =>
      simp only [List.cons_append, List.cons.injEq] at heq
      refine Or.inr ⟨pre', post, heq.2, ?_⟩
      rw [← heq.1] at hP
      exact hP
  · rintro (⟨rfl, hP⟩ | ⟨pre, post, heq, hP⟩)
    · exact ⟨[], rest, rfl, hP⟩
    · exact ⟨a :: pre, post, by rw [heq, List.cons_append], hP⟩

lemma gcChain_versions_outside (txs : List (Nat × Transaction)) (oldest : Int) :
    ∀ (chain : List Nat) (found : Bool) (versions : List (Nat × Version)) (v : Nat),
      v ∉ chain →
      alookup (gcChain txs oldest chain found versions).1 v = alookup versions v := by
  intro chain
  induction chain with
  | nil =>
    intro found versions v _
    simp [gcChain]
  | cons verID rest ih =>
    intro found versions v hv
    have hvne : v ≠ verID := fun h => hv (h ▸ List.mem_cons_self _ _)
    have hvrest : v ∉ rest := fun h => hv (List.mem_cons_of_mem _ h)
    rcases h1 : alookup versions verID with _ | ver
    · simp only [gcChain, h1]
      exact ih found versions v hvrest
    · rcases h2 : alookup txs ver.createdBy with _ | ctx
      · simp only [gcChain, h1, h2]
        exact ih found versions v hvrest
      · rcases h3 : ctx.commitTime with _ | ct
        · simp only [gcChain, h1, h2, h3]
          exact ih found versions v hvrest
        · by_cases h4 : ctx.status = .committed
          · by_cases h5 : ct < oldest ∧ found = true
            · simp only [gcChain, h1, h2, h3]
              rw [if_pos h4, if_pos h5]
              simp only []
              rw [ih found _ v hvrest, alookup_aerase_ne hvne]
            · simp only [gcChain, h1, h2, h3]
              rw [if_pos h4, if_neg h5]
              exact ih true versions v hvrest
          · simp only [gcChain, h1, h2, h3]
            rw [if_neg h4]
            exact ih found versions v hvrest

/--
The per-row scan removes exactly the versions whose creator committed
strictly before the threshold and that are preceded in the (duplicate
free) chain by a version with a committed creator (or the flag was
already set on entry).
-/
lemma gcChain_removed_iff (txs : List (Nat × Transaction)) (oldest : Int) :
    ∀ (chain : List Nat) (found : Bool) (versions : List (Nat × Version)),
      chain.Nodup →
      ∀ v, v ∈ (gcChain txs oldest chain found versions).2.2 ↔
        ∃ pre post, chain = pre ++ v :: post ∧
          RemovableAt txs versions oldest v ∧
          (found = true ∨ ∃ w ∈ pre, CommittedCreator txs versions w) := by
  intro chain
  induction chain with
  | nil =>
    intro found versions _ v
    simp [gcChain]
  | cons verID rest ih =>
    intro found versions hnd v
    obtain ⟨hnotin, hndrest⟩ := List.nodup_cons.mp hnd
    rw [decomp_cons (fun pre => RemovableAt txs versions oldest v ∧
      (found = true ∨ ∃ w ∈ pre, CommittedCreator txs versions w))]
    rcases h1 : alookup versions verID with _ | ver
    · -- missing version record: kept, not removable, not committed-creator
      have hexp : (gcChain txs oldest (verID :: rest) found versions).2.2 =
          (gcChain txs oldest rest found versions).2.2 := by
        simp only [gcChain, h1]
      have hRv : ¬ RemovableAt txs versions oldest verID := by
        rintro ⟨ver, hver, -⟩
        rw [h1] at hver
        exact absurd hver (by simp)
      have hCv : ¬ CommittedCreator txs versions verID := by
        rintro ⟨ver, hver, -⟩
        rw [h1] at hver
        exact absurd hver (by simp)
      rw [hexp, ih found versions hndrest v]
      constructor
      · rintro ⟨pre, post, heq, hrem, hside⟩
        refine Or.inr ⟨pre, post, heq, hrem, ?_⟩
        rcases hside with h | ⟨w, hw, hcc⟩
        · exact Or.inl h
        · exact Or.inr ⟨w, List.mem_cons_of_mem _ hw, hcc⟩
      · rintro (⟨rfl, hrem, -⟩ | ⟨pre, post, heq, hrem, hside⟩)
        · exact absurd hrem hRv
        · refine ⟨pre, post, heq, hrem, ?_⟩
          rcases hside with h | ⟨w, hw, hcc⟩
          · exact Or.inl h
          · rcases List.mem_cons.mp hw with rfl | hw
            · exact absurd hcc hCv
            · exact Or.inr ⟨w, hw, hcc⟩
    · rcases h2 : alookup txs ver.createdBy with _ | ctx
      · -- missing creator record: same shape as above
        have hexp : (gcChain txs oldest (verID :: rest) found versions).2.2 =
            (gcChain txs oldest rest found versions).2.2 := by
          simp only [gcChain, h1, h2]
        have hRv : ¬ RemovableAt txs versions oldest verID := by
          rintro ⟨ver', hver, ctx, hctx, -⟩
          rw [h1] at hver
          obtain rfl : ver = ver' := Option.some.inj hver
          rw [h2] at hctx
          exact absurd hctx (by simp)
        have hCv : ¬ CommittedCreator txs versions verID := by
          rintro ⟨ver', hver, ctx, hctx, -⟩
          rw [h1] at hver
          obtain rfl : ver = ver' := Option.some.inj hver
          rw [h2] at hctx
          exact absurd hctx (by simp)
        rw [hexp, ih found versions hndrest v]
        constructor
        · rintro ⟨pre, post, heq, hrem, hside⟩
          refine Or.inr ⟨pre, post, heq, hrem, ?_⟩
          rcases hside with h | ⟨w, hw, hcc⟩
          · exact Or.inl h
          · exact Or.inr ⟨w, List.mem_cons_of_mem _ hw, hcc⟩
        · rintro (⟨rfl, hrem, -⟩ | ⟨pre, post, heq, hrem, hside⟩)
          · exact absurd hrem hRv
          · refine ⟨pre, post, heq, hrem, ?_⟩
            rcases hside with h | ⟨w, hw, hcc⟩
            · exact Or.inl h
            · rcases List.mem_cons.mp hw with rfl | hw
              · exact absurd hcc hCv
              · exact Or.inr ⟨w, hw, hcc⟩
      · rcases h3 : ctx.commitTime with _ | ct
        · -- creator has no commit time: kept, flag unchanged
          have hexp : (gcChain txs oldest (verID :: rest) found versions).2.2 =
              (gcChain txs oldest rest found versions).2.2 := by
            simp only [gcChain, h1, h2, h3]
          have hRv : ¬ RemovableAt txs versions oldest verID := by
            rintro ⟨ver', hver, ctx', hctx, -, ct', hct, -⟩
            rw [h1] at hver
            obtain rfl : ver = ver' := Option.some.inj hver
            rw [h2] at hctx
            obtain rfl : ctx = ctx' := Option.some.inj hctx
            rw [h3] at hct
            exact absurd hct (by simp)
          have hCv : ¬ CommittedCreator txs versions verID := by
            rintro ⟨ver', hver, ctx', hctx, -, hsome⟩
            rw [h1] at hver
            obtain rfl : ver = ver' := Option.some.inj hver
            rw [h2] at hctx
            obtain rfl : ctx = ctx' := Option.some.inj hctx
            rw [h3] at hsome
            exact absurd hsome (by simp)
          rw [hexp, ih found versions hndrest v]
          constructor
          · rintro ⟨pre, post, heq, hrem, hside⟩
            refine Or.inr ⟨pre, post, heq, hrem, ?_⟩
            rcases hside with h | ⟨w, hw, hcc⟩
            · exact Or.inl h
            · exact Or.inr ⟨w, List.mem_cons_of_mem _ hw, hcc⟩
          · rintro (⟨rfl, hrem, -⟩ | ⟨pre, post, heq, hrem, hside⟩)
            · exact absurd hrem hRv
            · refine ⟨pre, post, heq, hrem, ?_⟩
              rcases hside with h | ⟨w, hw, hcc⟩
              · exact Or.inl h
              · rcases List.mem_cons.mp hw with rfl | hw
                · exact absurd hcc hCv
                · exact Or.inr ⟨w, hw, hcc⟩
        · by_cases h4 : ctx.status = .committed
          · have hCv : CommittedCreator txs versions verID :=
              ⟨ver, h1, ctx, h2, h4, by rw [h3]; rfl⟩
            by_cases h5 : ct < oldest ∧ found = true
            · -- removal branch
              have hexp : (gcChain txs oldest (verID :: rest) found versions).2.2 =
                  verID ::
                    (gcChain txs oldest rest found (aerase versions verID)).2.2 := by
                simp only [gcChain, h1, h2, h3]
                rw [if_pos h4, if_pos h5]
              have hRv : RemovableAt txs versions oldest verID :=
                ⟨ver, h1, ctx, h2, h4, ct, h3, h5.1⟩
              rw [hexp]
              constructor
              · intro hmem
                rcases List.mem_cons.mp hmem with rfl | hmem
                · exact Or.inl ⟨rfl, hRv, Or.inl h5.2⟩
                · obtain ⟨pre, post, heq, hrem, hside⟩ :=
                    (ih found (aerase versions verID) hndrest v).mp hmem
                  have hvrest : v ∈ rest := by
                    rw [heq]
                    simp
                  have hvne : v ≠ verID := fun hh => hnotin (hh ▸ hvrest)
                  refine Or.inr ⟨pre, post, heq,
                    (removableAt_congr (alookup_aerase_ne hvne)).mp hrem, ?_⟩
                  rcases hside with h | ⟨w, hw, hcc⟩
                  · exact Or.inl h
                  · have hwrest : w ∈ rest := by
                      rw [heq]
                      exact List.mem_append.mpr (Or.inl hw)
                    have hwne : w ≠ verID := fun hh => hnotin (hh ▸ hwrest)
                    exact Or.inr ⟨w, List.mem_cons_of_mem _ hw,
                      (committedCreator_congr (alookup_aerase_ne hwne)).mp hcc⟩
              · rintro (⟨rfl, -, -⟩ | ⟨pre, post, heq, hrem, hside⟩)
                · exact List.mem_cons_self _ _
                · have hvrest : v ∈ rest := by
                    rw [heq]
                    simp
                  have hvne : v ≠ verID := fun hh => hnotin (hh ▸ hvrest)
                  refine List.mem_cons_of_mem _
                    ((ih found (aerase versions verID) hndrest v).mpr
                      ⟨pre, post, heq,
                        (removableAt_congr (alookup_aerase_ne hvne)).mpr hrem, ?_⟩)
                  rcases hside with h | ⟨w, hw, hcc⟩
                  · exact Or.inl h
                  · rcases List.mem_cons.mp hw with rfl | hw
                    · exact Or.inl h5.2
                    · have hwrest : w ∈ rest := by
                        rw [heq]
                        exact List.mem_append.mpr (Or.inl hw)
                      have hwne : w ≠ verID := fun hh => hnotin (hh ▸ hwrest)
                      exact Or.inr ⟨w, hw,
                        (committedCreator_congr (alookup_aerase_ne hwne)).mpr hcc⟩
            · -- kept committed version: flag becomes true
              have hexp : (gcChain txs oldest (verID :: rest) found versions).2.2 =
                  (gcChain txs oldest rest true versions).2.2 := by
                simp only [gcChain, h1, h2, h3]
                rw [if_pos h4, if_neg h5]
              rw [hexp, ih true versions hndrest v]
              constructor
              · rintro ⟨pre, post, heq, hrem, -⟩
                exact Or.inr ⟨pre, post, heq, hrem, Or.inr ⟨verID, List.mem_cons_self _ _, hCv⟩⟩
              · rintro (⟨rfl, hrem, hside⟩ | ⟨pre, post, heq, hrem, -⟩)
                · -- the head itself cannot be removed here
                  obtain ⟨ver', hver, ctx', hctx, -, ct', hct, hlt⟩ := hrem
                  rw [h1] at hver
                  obtain rfl : ver = ver' := Option.some.inj hver
                  rw [h2] at hctx
                  obtain rfl : ctx = ctx' := Option.some.inj hctx
                  rw [h3] at hct
                  obtain rfl : ct = ct' := Option.some.inj hct
                  rcases hside with hf | ⟨w, hw, -⟩
                  · exact absurd ⟨hlt, hf⟩ h5
                  · exact absurd hw (List.not_mem_nil w)
                · exact ⟨pre, post, heq, hrem, Or.inl rfl⟩
          · -- creator not committed: kept, flag unchanged
            have hexp : (gcChain txs oldest (verID :: rest) found versions).2.2 =
                (gcChain txs oldest rest found versions).2.2 := by
              simp only [gcChain, h1, h2, h3]
              rw [if_neg h4]
            have hRv : ¬ RemovableAt txs versions oldest verID := by
              rintro ⟨ver', hver, ctx', hctx, hst, -⟩
              rw [h1] at hver
              obtain rfl : ver = ver' := Option.some.inj hver
              rw [h2] at hctx
              obtain rfl : ctx = ctx' := Option.some.inj hctx
              exact h4 hst
            have hCv : ¬ CommittedCreator txs versions verID := by
              rintro ⟨ver', hver, ctx', hctx, hst, -⟩
              rw [h1] at hver
              obtain rfl : ver = ver' := Option.some.inj hver
              rw [h2] at hctx
              obtain rfl : ctx = ctx' := Option.some.inj hctx
              exact h4 hst
            rw [hexp, ih found versions hndrest v]
            constructor
            · rintro ⟨pre, post, heq, hrem, hside⟩
              refine Or.inr ⟨pre, post, heq, hrem, ?_⟩
              rcases hside with h | ⟨w, hw, hcc⟩
              · exact Or.inl h
              · exact Or.inr ⟨w, List.mem_cons_of_mem _ hw, hcc⟩
            · rintro (⟨rfl, hrem, -⟩ | ⟨pre, post, heq, hrem, hside⟩)
              · exact absurd hrem hRv
              · refine ⟨pre, post, heq, hrem, ?_⟩
                rcases hside with h | ⟨w, hw, hcc⟩
                · exact Or.inl h
                · rcases List.mem_cons.mp hw with rfl | hw
                  · exact absurd hcc hCv
                  · exact Or.inr ⟨w, hw, hcc⟩

/-- Lifting the per-row characterization over the whole row map: chains
of distinct rows are disjoint in reachable stores, so earlier rows'
deletions never change a later row's verdicts. -/
lemma gcRows_removed_iff (txs : List (Nat × Transaction)) (oldest : Int) :
    ∀ (rows : List (String × Row)) (versions : List (Nat × Version)),
      (∀ p ∈ rows, p.2.versionChain.Nodup) →
      List.Pairwise (fun a b => ∀ x ∈ a.2.versionChain, x ∉ b.2.versionChain) rows →
      ∀ v, v ∈ (gcRows txs oldest rows versions).2.2 ↔
        ∃ p ∈ rows, ∃ pre post, p.2.versionChain = pre ++ v :: post ∧
          RemovableAt txs versions oldest v ∧
          ∃ w ∈ pre, CommittedCreator txs versions w := by
  intro rows
  induction rows with
  | nil =>
    intro versions _ _ v
    simp [gcRows]
  | cons p rest ih =>
    intro versions hnd hpw v
    obtain ⟨rowID, row⟩ := p
    obtain ⟨hhead, htail⟩ := List.pairwise_cons.mp hpw
    have hndrow : row.versionChain.Nodup := hnd _ (List.mem_cons_self _ _)
    have hndrest : ∀ q ∈ rest, q.2.versionChain.Nodup :=
      fun q hq => hnd q (List.mem_cons_of_mem _ hq)
    have hexp : (gcRows txs oldest ((rowID, row) :: rest) versions).2.2 =
        (gcChain txs oldest row.versionChain false versions).2.2 ++
          (gcRows txs oldest rest (gcChain txs oldest row.versionChain false versions).1).2.2 := by
      simp only [gcRows]
    rw [hexp, List.mem_append,
      gcChain_removed_iff txs oldest row.versionChain false versions hndrow v,
      ih (gcChain txs oldest row.versionChain false versions).1 hndrest htail v]
    constructor
    · rintro (⟨pre, post, heq, hrem, hside⟩ | ⟨q, hq, pre, post, heq, hrem, hcc⟩)
      · rcases hside with hf | hcc
        · exact absurd hf (by simp)
        · exact ⟨(rowID, row), List.mem_cons_self _ _, pre, post, heq, hrem, hcc⟩
      · have hvchain : v ∈ q.2.versionChain := by
          rw [heq]
          simp
        have hvout : v ∉ row.versionChain := fun hx => (hhead q hq v hx) hvchain
        have htr := gcChain_versions_outside txs oldest row.versionChain false versions v hvout
        refine ⟨q, List.mem_cons_of_mem _ hq, pre, post, heq,
          (removableAt_congr htr).mp hrem, ?_⟩
        obtain ⟨w, hw, hccw⟩ := hcc
        have hwchain : w ∈ q.2.versionChain := by
          rw [heq]
          exact List.mem_append.mpr (Or.inl hw)
        have hwout : w ∉ row.versionChain := fun hx => (hhead q hq w hx) hwchain
        have htrw := gcChain_versions_outside txs oldest row.versionChain false versions w hwout
        exact ⟨w, hw, (committedCreator_congr htrw).mp hccw⟩
    · rintro ⟨q, hq, pre, post, heq, hrem, hcc⟩
      rcases List.mem_cons.mp hq with rfl | hq
      · exact Or.inl ⟨pre, post, heq, hrem, Or.inr hcc⟩
      · have hvchain : v ∈ q.2.versionChain := by
          rw [heq]
          simp
        have hvout : v ∉ row.versionChain := fun hx => (hhead q hq v hx) hvchain
        have htr := gcChain_versions_outside txs oldest row.versionChain false versions v hvout
        refine Or.inr ⟨q, hq, pre, post, heq, (removableAt_congr htr).mpr hrem, ?_⟩
        obtain ⟨w, hw, hccw⟩ := hcc
        have hwchain : w ∈ q.2.versionChain := by
          rw [heq]
          exact List.mem_append.mpr (Or.inl hw)
        have hwout : w ∉ row.versionChain := fun hx => (hhead q hq w hx) hwchain
        have htrw := gcChain_versions_outside txs oldest row.versionChain false versions w hwout
        exact ⟨w, hw, (committedCreator_congr htrw).mpr hccw⟩

/--
C3 (amended).  `GarbageCollect` removes exactly those versions whose
creator committed strictly before the oldest start-timestamp among
active transactions *and* that are preceded in their row's newest-first
chain by a version whose creator is committed (the `foundVisible` flag);
consequently every non-empty row keeps its chain head (in particular at
least one version per row survives) and `CurrentVersion` is untouched —
but a surviving version need not be visible to every active transaction:
a version visible to an active snapshot may be removed when a newer
committed version exists whose commit time lies after that snapshot
(see the counterexample).  Hypotheses: chains are duplicate-free and
rows' chains are pairwise disjoint, as in every reachable store.
-/
theorem gc_removed_characterization (s : MVCCStore)
    (hnd : ∀ p ∈ s.rows, p.2.versionChain.Nodup)
    (hdisj : List.Pairwise (fun a b => ∀ x ∈ a.2.versionChain, x ∉ b.2.versionChain) s.rows) :
    (∀ v, v ∈ (GarbageCollect s).2 ↔
      ∃ p ∈ s.rows, ∃ pre post, p.2.versionChain = pre ++ v :: post ∧
        RemovableAt s.transactions s.versions (oldestActiveStart s) v ∧
        ∃ w ∈ pre, CommittedCreator s.transactions s.versions w) ∧
    (∀ rid row', alookup (GarbageCollect s).1.rows rid = some row' →
      ∃ row, alookup s.rows rid = some row ∧
        row'.currentVersion = row.currentVersion ∧
        row'.versionChain.head? = row.versionChain.head? ∧
        (row.versionChain ≠ [] → row'.versionChain ≠ [])) := by
  constructor
  · intro v
    exact gcRows_removed_iff s.transactions (oldestActiveStart s) s.rows s.versions hnd hdisj v
  · intro rid row' h
    exact gcRows_lookup s.transactions (oldestActiveStart s) s.rows s.versions rid row' h

/-- Witness for `gc_removed_characterization` at the concrete store
`c3Store`, instantiated at the removed version id 1. -/
theorem gc_removed_characterization_witness :
    ((∀ p ∈ c3Store.rows, p.2.versionChain.Nodup) ∧
      List.Pairwise (fun a b => ∀ x ∈ a.2.versionChain, x ∉ b.2.versionChain) c3Store.rows) ∧
    (1 ∈ (GarbageCollect c3Store).2 ↔
      ∃ p ∈ c3Store.rows, ∃ pre post, p.2.versionChain = pre ++ 1 :: post ∧
        RemovableAt c3Store.transactions c3Store.versions (oldestActiveStart c3Store) 1 ∧
        ∃ w ∈ pre, CommittedCreator c3Store.transactions c3Store.versions w) :=
  ⟨⟨by decide, by decide⟩,
    (gc_removed_characterization c3Store (by decide) (by decide)).1 1⟩

/-- Witness for `row_chain_invariant` at the concrete reachable store
`demoStore` (begin; write users:1). -/
theorem row_chain_invariant_witness :
    (alookup demoStore.rows "users:1").isSome = true ∧
    (∀ rid row, alookup demoStore.rows rid = some row →
      row.versionChain ≠ [] ∧ row.currentVersion = row.versionChain.head?) :=
  ⟨by decide,
    row_chain_invariant demoStore
      (Reachable.write _ 1 "users:1" [("name", "A")] (Reachable.begin _ Reachable.init))⟩

end MvccSpec

namespace ParserSpec

/-- `TokenType` constants of the lexer. -/
inductive TokenType where
  | tSelect
  | tFrom
  | tWhere
  | tAnd
  | tOr
  | tNot
  | tInsert
  | tInto
  | tValues
  | tUpdate
  | tSet
  | tDelete
  | tCreate
  | tTable
  | tJoin
  | tOn
  | tAs
  | tOrderBy
  | tGroupBy
  | tLimit
  | tOffset
  | tIdentifier
  | tNumber
  | tString
  | tOperator
  | tComma
  | tStar
  | tLParen
  | tRParen
  | tSemicolon
  | tEOF
  | tError
deriving DecidableEq

/-- The Go string value of each token type (used in messages). -/
def typeName : TokenType → String
  | .tSelect => "SELECT"
  | .tFrom => "FROM"
  | .tWhere => "WHERE"
  | .tAnd => "AND"
  | .tOr => "OR"
  | .tNot => "NOT"
  | .tInsert => "INSERT"
  | .tInto => "INTO"
  | .tValues => "VALUES"
  | .tUpdate => "UPDATE"
  | .tSet => "SET"
  | .tDelete => "DELETE"
  | .tCreate => "CREATE"
  | .tTable => "TABLE"
  | .tJoin => "JOIN"
  | .tOn => "ON"
  | .tAs => "AS"
  | .tOrderBy => "ORDER BY"
  | .tGroupBy => "GROUP BY"
  | .tLimit => "LIMIT"
  | .tOffset => "OFFSET"
  | .tIdentifier => "IDENTIFIER"
  | .tNumber => "NUMBER"
  | .tString => "STRING"
  | .tOperator => "OPERATOR"
  | .tComma => "COMMA"
  | .tStar => "STAR"
  | .tLParen => "LPAREN"
  | .tRParen => "RPAREN"
  | .tSemicolon => "SEMICOLON"
  | .tEOF => "EOF"
  | .tError => "ERROR"

/-- A lexical token; `Position` is flattened into the two offsets. -/
structure Token where
  type : TokenType
  value : String
  posStart : Nat
  posEnd : Nat
deriving DecidableEq

/-- The zero `Token` value the Go parser returns past the end of input. -/
instance : Inhabited Token := ⟨⟨.tEOF, "", 0, 0⟩⟩

/-- The `Keywords` map (`"BY"` maps to identifier, as in the source). -/
def Keywords (s : String) : Option TokenType :=
  if s = "SELECT" then some .tSelect
  else if s = "FROM" then some .tFrom
  else if s = "WHERE" then some .tWhere
  else if s = "AND" then some .tAnd
  else if s = "OR" then some .tOr
  else if s = "NOT" then some .tNot
  else if s = "INSERT" then some .tInsert
  else if s = "INTO" then some .tInto
  else if s = "VALUES" then some .tValues
  else if s = "UPDATE" then some .tUpdate
  else if s = "SET" then some .tSet
  else if s = "DELETE" then some .tDelete
  else if s = "CREATE" then some .tCreate
  else if s = "TABLE" then some .tTable
  else if s = "JOIN" then some .tJoin
  else if s = "ON" then some .tOn
  else if s = "AS" then some .tAs
  else if s = "ORDER" then some .tOrderBy
  else if s = "GROUP" then some .tGroupBy
  else if s = "BY" then some .tIdentifier
  else if s = "LIMIT" then some .tLimit
  else if s = "OFFSET" then some .tOffset
  else none

/-- Mirrors `skipWhitespace` (advance past unicode spaces). -/
def skipWhitespace (input : List Char) (pos : Nat) : Nat :=
  pos + ((input.drop pos).takeWhile Char.isWhitespace).length

/-- Mirrors `readOperator`: one- or two-character comparison operators. -/
def readOperator (input : List Char) (start : Nat) : Token × Nat :=
  let ch := input.getD start ' '
  let pos := start + 1
  if pos < input.length then
    let next := input.getD pos ' '
    if (ch = '<' ∧ next = '=') ∨ (ch = '>' ∧ next = '=') ∨
        (ch = '!' ∧ next = '=') ∨ (ch = '<' ∧ next = '>') then
      (⟨.tOperator, String.mk [ch, next], start, pos + 1⟩, pos + 1)
    else
      (⟨.tOperator, String.mk [ch], start, pos⟩, pos)
  else
    (⟨.tOperator, String.mk [ch], start, pos⟩, pos)

/-- The scan loop of `readString` after the opening quote: number of
characters consumed up to and including the closing quote, skipping
backslash escapes; `none` when the string is unterminated. -/
def scanQuoted (quote : Char) : List Char → Option Nat
  | [] => none
  | c :: cs =>
    if c = quote then some 1
    else if c = '\\' then
      match cs with
      | [] => none
      | _ :: cs' => (scanQuoted quote cs').map (· + 2)
    else (scanQuoted quote cs).map (· + 1)

/-- Mirrors `readString`: a quoted literal, with an explicit error token
(ending at the end of input) when unterminated. -/
def readString (input : List Char) (start : Nat) (quote : Char) : Token × Nat :=
  match scanQuoted quote (input.drop (start + 1)) with
  | none => (⟨.tError, "unterminated string", start, input.length⟩, input.length)
  | some n =>
    let endPos := start + 1 + n
    (⟨.tString, String.mk ((input.drop (start + 1)).take (n - 1)), start, endPos⟩, endPos)

/-- Mirrors `readNumber` (digits and dots). -/
def readNumber (input : List Char) (start : Nat) : Token × Nat :=
  let cnt := ((input.drop start).takeWhile (fun c => c.isDigit || c = '.')).length
  (⟨.tNumber, String.mk ((input.drop start).take cnt), start, start + cnt⟩, start + cnt)

/-- Mirrors `readIdentifier`: letters, digits, underscores; keywords are
recognized case-insensitively and emitted in upper case. -/
def readIdentifier (input : List Char) (start : Nat) : Token × Nat :=
  let cnt := ((input.drop start).takeWhile
    (fun c => c.isAlpha || c.isDigit || c = '_')).length
  let value := String.mk ((input.drop start).take cnt)
  let upper := String.mk (((input.drop start).take cnt).map Char.toUpper)
  match Keywords upper with
  | some tt => (⟨tt, upper, start, start + cnt⟩, start + cnt)
  | none => (⟨.tIdentifier, value, start, start + cnt⟩, start + cnt)

/-- Mirrors `nextToken` (precondition `pos < len(input)`; the quote
characters are written by code point to keep the source ASCII-clean). -/
def nextToken (input : List Char) (pos : Nat) : Token × Nat :=
  let ch := input.getD pos ' '
  if ch = ',' then (⟨.tComma, ",", pos, pos + 1⟩, pos + 1)
  else if ch = '*' then (⟨.tStar, "*", pos, pos + 1⟩, pos + 1)
  else if ch = '(' then (⟨.tLParen, "(", pos, pos + 1⟩, pos + 1)
  else if ch = ')' then (⟨.tRParen, ")", pos, pos + 1⟩, pos + 1)
  else if ch = ';' then (⟨.tSemicolon, ";", pos, pos + 1⟩, pos + 1)
  else if ch = '=' ∨ ch = '<' ∨ ch = '>' ∨ ch = '!' then readOperator input pos
  else if ch = Char.ofNat 39 ∨ ch = Char.ofNat 34 then readString input pos ch
  else if ch.isDigit then readNumber input pos
  else if ch.isAlpha ∨ ch = '_' then readIdentifier input pos
  else (⟨.tError, String.mk [ch], pos, pos + 1⟩, pos + 1)

/-- The tokenization loop of `prepareParseSimulation`
(`for lexer.HasMore() { token := lexer.TokenizeStep(); ... }`).  `fuel`
bounds the number of iterations; since `nextToken` always advances the
position, `input.length + 1` iterations are always enough. -/
def collectTokens (input : List Char) : Nat → Nat → List Token
  | 0, _ => []
  | fuel + 1, pos =>
    let p := skipWhitespace input pos
    if p < input.length then
      let res := nextToken input p
      if res.1.type = .tEOF then []
      else res.1 :: collectTokens input fuel res.2
    else []

/-- The trailing EOF token appended by the simulation. -/
def eofTokenAt (n : Nat) : Token := ⟨.tEOF, "", n, n⟩

/-- The token stream the simulation hands to the parser: the collected
tokens plus the trailing EOF token. -/
def simTokens (q : String) : List Token :=
  collectTokens q.data (q.data.length + 1) 0 ++ [eofTokenAt q.data.length]

/-- `ASTNodeType` constants. -/
inductive NodeType where
  | nSelect
  | nFrom
  | nWhere
  | nColumns
  | nColumn
  | nTable
  | nCondition
  | nBinaryExpr
  | nLiteral
  | nIdentifier
  | nFunction
  | nOrderBy
  | nLimit
  | nJoin
  | nStatement
deriving DecidableEq

def nodeTypeName : NodeType → String
  | .nSelect => "SELECT"
  | .nFrom => "FROM"
  | .nWhere => "WHERE"
  | .nColumns => "COLUMNS"
  | .nColumn => "COLUMN"
  | .nTable => "TABLE"
  | .nCondition => "CONDITION"
  | .nBinaryExpr => "BINARY_EXPR"
  | .nLiteral => "LITERAL"
  | .nIdentifier => "IDENTIFIER"
  | .nFunction => "FUNCTION"
  | .nOrderBy => "ORDER_BY"
  | .nLimit => "LIMIT"
  | .nJoin => "JOIN"
  | .nStatement => "STATEMENT"

/-- `ASTNode`; Go's string ids `ast-N` are represented by `N`, and the
free-form metadata map is carried as string pairs. -/
structure ASTNode where
  id : Nat
  ntype : NodeType
  value : String
  children : List Nat
  parent : Option Nat
  meta : List (String × String)
deriving DecidableEq

/-- The mutable `Parser` receiver state. -/
structure PState where
  tokens : List Token
  pos : Nat
  nodes : List (Nat × ASTNode)
  nodeSeq : Nat
  errors : List String
deriving DecidableEq

/-- Mirrors `Parser.current()` (the zero token past the end). -/
def pCurrent (st : PState) : Token :=
  st.tokens.getD st.pos default

/-- Mirrors `Parser.advance()`. -/
def pAdvance (st : PState) : Token × PState :=
  (pCurrent st, { st with pos := st.pos + 1 })

/-- Mirrors `Parser.createNode`. -/
def createNode (st : PState) (t : NodeType) (v : String) : Nat × PState :=
  let id := st.nodeSeq + 1
  (id, { st with nodeSeq := id,
                 nodes := MvccSpec.aupsert st.nodes id ⟨id, t, v, [], none, []⟩ })

/-- Update one node in the map (pointer mutation in the source). -/
def updNode (st : PState) (id : Nat) (f : ASTNode → ASTNode) : PState :=
  match MvccSpec.alookup st.nodes id with
  | some n => { st with nodes := MvccSpec.aupsert st.nodes id (f n) }
  | none => st

/-- Mirrors `Parser.addChild`. -/
def addChild (st : PState) (parentID childID : Nat) : PState :=
  let st₁ := updNode st parentID (fun n => { n with children := n.children ++ [childID] })
  updNode st₁ childID (fun n => { n with parent := some parentID })

/-- Record one violation (`p.errors = append(p.errors, ...)`). -/
def addErr (st : PState) (msg : String) : PState :=
  { st with errors := st.errors ++ [msg] }

/-- Mirrors `Parser.expect`. -/
def pExpect (st : PState) (tt : TokenType) : (Token × Bool) × PState :=
  let token := pCurrent st
  if token.type ≠ tt then
    ((token, false),
      addErr st ("expected " ++ typeName tt ++ " but got " ++ typeName token.type))
  else
    let res := pAdvance st
    ((res.1, true), res.2)

/-- Set one metadata entry on a node. -/
def setMeta (st : PState) (id : Nat) (key val : String) : PState :=
  updNode st id (fun n => { n with meta := MvccSpec.aupsert n.meta key val })

/- The recursive-descent functions, state passed explicitly and node ids
standing for the Go node pointers.  `fuel` bounds the recursion depth and
loop iterations (every loop iteration consumes at least one token, and
the grammar descends only a constant number of levels per token, so the
generous fuel chosen in `Parse` never runs out on the source's inputs).
A `none` result is the Go `nil` node. -/
mutual

def parseStatement : Nat → PState → Option Nat × PState
  | 0, st => (none, st)
  | fuel + 1, st =>
    match (pCurrent st).type with
    | .tSelect => parseSelect fuel st
    | t => (none, addErr st ("unexpected token: " ++ typeName t))

def parseSelect : Nat → PState → Option Nat × PState
  | 0, st => (none, st)
  | fuel + 1, st =>
    let rn := createNode st .nStatement "SELECT"
    let selectID := rn.1
    let st := setMeta rn.2 selectID "type" "SELECT"
    let st := (pAdvance st).2
    let rc := parseColumns fuel st
    let st :=
      match rc.1 with
      | some colID => addChild rc.2 selectID colID
      | none => rc.2
    let st :=
      if (pCurrent st).type = .tFrom then
        let rf := parseFrom fuel st
        match rf.1 with
        | some fid => addChild rf.2 selectID fid
        | none => rf.2
      else st
    let st :=
      if (pCurrent st).type = .tWhere then
        let rw := parseWhere fuel st
        match rw.1 with
        | some wid => addChild rw.2 selectID wid
        | none => rw.2
      else st
    let st :=
      if (pCurrent st).type = .tOrderBy then
        let ro := parseOrderBy fuel st
        match ro.1 with
        | some oid => addChild ro.2 selectID oid
        | none => ro.2
      else st
    let st :=
      if (pCurrent st).type = .tLimit then
        let rl := parseLimit fuel st
        match rl.1 with
        | some lid => addChild rl.2 selectID lid
        | none => rl.2
      else st
    (some selectID, st)

def parseColumns : Nat → PState → Option Nat × PState
  | 0, st => (none, st)
  | fuel + 1, st =>
    let rn := createNode st .nColumns ""
    let columnsID := rn.1
    (some columnsID, columnsLoop fuel columnsID rn.2)

def columnsLoop : Nat → Nat → PState → PState
  | 0, _, st => st
  | fuel + 1, columnsID, st =>
    if (pCurrent st).type = .tStar then
      let rc := createNode st .nColumn "*"
      let st := addChild rc.2 columnsID rc.1
      let st := (pAdvance st).2
      columnsComma fuel columnsID st
    else if (pCurrent st).type = .tIdentifier then
      let rc := parseColumnExpression fuel st
      let st :=
        match rc.1 with
        | some cid => addChild rc.2 columnsID cid
        | none => rc.2
      columnsComma fuel columnsID st
    else st

def columnsComma : Nat → Nat → PState → PState
  | 0, _, st => st
  | fuel + 1, columnsID, st =>
    if (pCurrent st).type ≠ .tComma then st
    else columnsLoop fuel columnsID (pAdvance st).2

def parseColumnExpression : Nat → PState → Option Nat × PState
  | 0, st => (none, st)
  | _fuel + 1, st =>
    let ra := pAdvance st
    let rc := createNode ra.2 .nColumn ra.1.value
    let colID := rc.1
    let st := rc.2
    if (pCurrent st).type = .tAs then
      let st := (pAdvance st).2
      let re := pExpect st .tIdentifier
      let st := if re.1.2 then setMeta re.2 colID "alias" re.1.1.value else re.2
      (some colID, st)
    else (some colID, st)

def parseFrom : Nat → PState → Option Nat × PState
  | 0, st => (none, st)
  | fuel + 1, st =>
    let rn := createNode st .nFrom ""
    let fromID := rn.1
    let st := (pAdvance rn.2).2
    let re := pExpect st .tIdentifier
    let st :=
      if re.1.2 then
        let rt := createNode re.2 .nTable re.1.1.value
        let tableID := rt.1
        let st := addChild rt.2 fromID tableID
        if (pCurrent st).type = .tAs then
          let st := (pAdvance st).2
          let ra := pExpect st .tIdentifier
          if ra.1.2 then setMeta ra.2 tableID "alias" ra.1.1.value else ra.2
        else if (pCurrent st).type = .tIdentifier then
          let ra := pAdvance st
          setMeta ra.2 tableID "alias" ra.1.value
        else st
      else re.2
    (some fromID, joinLoop fuel fromID st)

def joinLoop : Nat → Nat → PState → PState
  | 0, _, st => st
  | fuel + 1, fromID, st =>
    if (pCurrent st).type = .tJoin then
      let rj := parseJoin fuel st
      let st :=
        match rj.1 with
        | some jid => addChild rj.2 fromID jid
        | none => rj.2
      joinLoop fuel fromID st
    else st

def parseJoin : Nat → PState → Option Nat × PState
  | 0, st => (none, st)
  | fuel + 1, st =>
    let rn := createNode st .nJoin ""
    let joinID := rn.1
    let st := (pAdvance rn.2).2
    let re := pExpect st .tIdentifier
    let st :=
      if re.1.2 then
        let rt := createNode re.2 .nTable re.1.1.value
        addChild rt.2 joinID rt.1
      else re.2
    let st :=
      if (pCurrent st).type = .tOn then
        let st := (pAdvance st).2
        let rc := parseExpression fuel st
        match rc.1 with
        | some cid => addChild rc.2 joinID cid
        | none => rc.2
      else st
    (some joinID, st)

def parseWhere : Nat → PState → Option Nat × PState
  | 0, st => (none, st)
  | fuel + 1, st =>
    let rn := createNode st .nWhere ""
    let whereID := rn.1
    let st := (pAdvance rn.2).2
    let rc := parseExpression fuel st
    let st :=
      match rc.1 with
      | some cid => addChild rc.2 whereID cid
      | none => rc.2
    (some whereID, st)

def parseExpression : Nat → PState → Option Nat × PState
  | 0, st => (none, st)
  | fuel + 1, st => parseOrExpression fuel st

def parseOrExpression : Nat → PState → Option Nat × PState
  | 0, st => (none, st)
  | fuel + 1, st =>
    let rl := parseAndExpression fuel st
    orLoop fuel rl.1 rl.2

def orLoop : Nat → Option Nat → PState → Option Nat × PState
  | 0, left, st => (left, st)
  | fuel + 1, left, st =>
    if (pCurrent st).type = .tOr then
      let st := (pAdvance st).2
      let rr := parseAndExpression fuel st
      let rn := createNode rr.2 .nBinaryExpr "OR"
      let orID := rn.1
      let st :=
        match left with
        | some l => addChild rn.2 orID l
        | none => rn.2
      let st :=
        match rr.1 with
        | some r => addChild st orID r
        | none => st
      orLoop fuel (some orID) st
    else (left, st)

def parseAndExpression : Nat → PState → Option Nat × PState
  | 0, st => (none, st)
  | fuel + 1, st =>
    let rl := parseComparisonExpression fuel st
    andLoop fuel rl.1 rl.2

def andLoop : Nat → Option Nat → PState → Option Nat × PState
  | 0, left, st => (left, st)
  | fuel + 1, left, st =>
    if (pCurrent st).type = .tAnd then
      let st := (pAdvance st).2
      let rr := parseComparisonExpression fuel st
      let rn := createNode rr.2 .nBinaryExpr "AND"
      let andID := rn.1
      let st :=
        match left with
        | some l => addChild rn.2 andID l
        | none => rn.2
      let st :=
        match rr.1 with
        | some r => addChild st andID r
        | none => st
      andLoop fuel (some andID) st
    else (left, st)

def parseComparisonExpression : Nat → PState → Option Nat × PState
  | 0, st => (none, st)
  | fuel + 1, st =>
    let rl := parsePrimaryExpression fuel st
    if (pCurrent rl.2).type = .tOperator then
      let ro := pAdvance rl.2
      let rr := parsePrimaryExpression fuel ro.2
      let rn := createNode rr.2 .nBinaryExpr ro.1.value
      let compID := rn.1
      let st :=
        match rl.1 with
        | some l => addChild rn.2 compID l
        | none => rn.2
      let st :=
        match rr.1 with
        | some r => addChild st compID r
        | none => st
      (some compID, st)
    else (rl.1, rl.2)

def parsePrimaryExpression : Nat → PState → Option Nat × PState
  | 0, st => (none, st)
  | fuel + 1, st =>
    let token := pCurrent st
    match token.type with
    | .tIdentifier =>
      let st := (pAdvance st).2
      let rn := createNode st .nIdentifier token.value
      (some rn.1, rn.2)
    | .tNumber =>
      let st := (pAdvance st).2
      let rn := createNode st .nLiteral token.value
      (some rn.1, setMeta rn.2 rn.1 "literalType" "number")
    | .tString =>
      let st := (pAdvance st).2
      let rn := createNode st .nLiteral token.value
      (some rn.1, setMeta rn.2 rn.1 "literalType" "string")
    | .tLParen =>
      let st := (pAdvance st).2
      let re := parseExpression fuel st
      let rx := pExpect re.2 .tRParen
      (re.1, rx.2)
    | t => (none, addErr st ("unexpected token in expression: " ++ typeName t))

def parseOrderBy : Nat → PState → Option Nat × PState
  | 0, st => (none, st)
  | _fuel + 1, st =>
    let rn := createNode st .nOrderBy ""
    let orderID := rn.1
    let st := (pAdvance rn.2).2
    let st :=
      if (pCurrent st).type = .tIdentifier ∧ (pCurrent st).value = "BY" then (pAdvance st).2
      else st
    let st :=
      if (pCurrent st).type = .tIdentifier then
        let ra := pAdvance st
        let rc := createNode ra.2 .nColumn ra.1.value
        let colID := rc.1
        let st := addChild rc.2 orderID colID
        if (pCurrent st).type = .tIdentifier ∧
            ((pCurrent st).value = "ASC" ∨ (pCurrent st).value = "DESC") then
          let st := setMeta st colID "direction" (pCurrent st).value
          (pAdvance st).2
        else st
      else st
    (some orderID, st)

def parseLimit : Nat → PState → Option Nat × PState
  | 0, st => (none, st)
  | _fuel + 1, st =>
    let rn := createNode st .nLimit ""
    let limitID := rn.1
    let st := (pAdvance rn.2).2
    let st :=
      if (pCurrent st).type = .tNumber then
        let ra := pAdvance st
        updNode ra.2 limitID (fun n => { n with value := ra.1.value })
      else st
    let st :=
      if (pCurrent st).type = .tOffset then
        let st := (pAdvance st).2
        if (pCurrent st).type = .tNumber then
          let ra := pAdvance st
          setMeta ra.2 limitID "offset" ra.1.value
        else st
      else st
    (some limitID, st)

end

def joinStrings : List String → String
  | [] => ""
  | [s] => s
  | s :: rest => s ++ " " ++ joinStrings rest

/-- Mirrors `Parser.Parse`: run `parseStatement` over the whole stream
and fail — carrying the recorded violations in the message — when no
statement node was produced.  The final parser state (with its recorded
`errors`) is returned alongside, standing for the Go receiver. -/
def Parse (tokens : List Token) : Except String Nat × PState :=
  let st0 : PState := { tokens := tokens, pos := 0, nodes := [], nodeSeq := 0, errors := [] }
  if tokens.length = 0 then (.error "no tokens to parse", st0)
  else
    let res := parseStatement (16 * (tokens.length + 1)) st0
    match res.1 with
    | none =>
      if 0 < res.2.errors.length then
        (.error ("parse errors: [" ++ joinStrings res.2.errors ++ "]"), res.2)
      else (.error "failed to parse statement", res.2)
    | some rootID => (.ok rootID, res.2)

/-- Build a step (the index is assigned afterwards by `reindexSteps`,
matching `Step.Index = len(sim.steps)` at append time). -/
def mkStep (title desc : String) (hs : List EngineSpec.Highlight) : EngineSpec.Step :=
  ⟨0, title, desc, hs⟩

def reindexSteps (steps : List EngineSpec.Step) : List EngineSpec.Step :=
  go 0 steps
where
  go : Nat → List EngineSpec.Step → List EngineSpec.Step
    | _, [] => []
    | i, s :: rest => { s with index := i } :: go (i + 1) rest

/- Mirrors `generateASTSteps`: one step per AST node, pre-order.  `fuel`
bounds the walk through the node map. -/
mutual

def genASTSteps (nodes : List (Nat × ASTNode)) : Nat → Nat → List EngineSpec.Step
  | 0, _ => []
  | fuel + 1, nodeID =>
    match MvccSpec.alookup nodes nodeID with
    | none => []
    | some node =>
      let tn := nodeTypeName node.ntype
      let desc :=
        if node.value ≠ "" then "Created " ++ tn ++ " node with value " ++ node.value
        else "Created " ++ tn ++ " node"
      mkStep ("AST: " ++ tn) desc
          [⟨"node", "ast-" ++ toString nodeID, "#8b5cf6", "fadeIn"⟩] ::
        childrenSteps nodes fuel node.children

def childrenSteps (nodes : List (Nat × ASTNode)) : Nat → List Nat → List EngineSpec.Step
  | 0, _ => []
  | _ + 1, [] => []
  | fuel + 1, c :: cs => genASTSteps nodes fuel c ++ childrenSteps nodes fuel cs

end

/-- The steps shared by both outcomes of `prepareParseSimulation`: the
start and tokenization steps, one step per produced token, the
tokenization-complete step and the parsing step. -/
def stepsPrefix (q : String) : List EngineSpec.Step :=
  let toks := collectTokens q.data (q.data.length + 1) 0
  mkStep "Start Parsing" ("Parsing SQL query: " ++ q) [] ::
  mkStep "Tokenization" "Breaking input into tokens (lexical analysis)" [] ::
  (toks.enum.map fun p =>
    mkStep ("Token: " ++ typeName p.2.type)
      ("Found " ++ typeName p.2.type ++ " token " ++ p.2.value ++ " at position " ++
        toString p.2.posStart ++ "-" ++ toString p.2.posEnd)
      [⟨"token", "token-" ++ toString p.1, "#3b82f6", "pulse"⟩]) ++
  [mkStep "Tokenization Complete"
      ("Created " ++ toString toks.length ++ " tokens from input") [],
    mkStep "Parsing" "Building Abstract Syntax Tree (AST) from tokens" []]

/-- The observable state of `ParserSimulation` after
`prepareParseSimulation`; `parseErrors` carries the parser's recorded
violations (`Parser.errors`). -/
structure SimState where
  query : String
  tokens : List Token
  astNodes : List (Nat × ASTNode)
  astRoot : Option Nat
  steps : List EngineSpec.Step
  parsePhase : String
  parseErrors : List String
deriving DecidableEq

/-- Mirrors `prepareParseSimulation`: tokenize, parse, and either end the
trace with a `Parse Error` step (phase `error`) or with the per-node AST
steps and the `Parsing Complete` step (phase `complete`). -/
def prepareParse (q : String) : SimState :=
  match Parse (simTokens q) with
  | (.error msg, pst) =>
    { query := q, tokens := simTokens q, astNodes := [], astRoot := none,
      steps := reindexSteps (stepsPrefix q ++ [mkStep "Parse Error" msg []]),
      parsePhase := "error", parseErrors := pst.errors }
  | (.ok rootID, pst) =>
    { query := q, tokens := simTokens q, astNodes := pst.nodes,
      astRoot := some rootID,
      steps := reindexSteps (stepsPrefix q ++
        genASTSteps pst.nodes (4 * (pst.nodes.length + 1)) rootID ++
        [mkStep "Parsing Complete"
          ("Successfully created AST with " ++ toString pst.nodes.length ++ " nodes")
          [⟨"node", "ast-" ++ toString rootID, "#10b981", "pulse"⟩]]),
      parsePhase := "complete", parseErrors := pst.errors }

/-- Mirrors `ParserSimulation.Initialize` for a non-empty query: prepare
the whole trace and return no error (the function only ever returns nil —
parse failures never reach the caller). -/
def initSim (q : String) : SimState × Option String :=
  (prepareParse q, none)

lemma getLast?_map {α β : Type} (f : α → β) :
    ∀ l : List α, (l.map f).getLast? = l.getLast?.map f := by
  intro l
  induction l with
  | nil => rfl
  | cons a l ih =>
    cases l with
    | nil => rfl
    | cons b t =>
      simp only [List.map_cons, List.getLast?_cons_cons] at ih ⊢
      simpa using ih

lemma reindexSteps_go_titles (i : Nat) (l : List EngineSpec.Step) :
    (reindexSteps.go i l).map (fun s => s.title) = l.map (fun s => s.title) := by
  induction l generalizing i with
  | nil => rfl
  | cons a l ih => simp [reindexSteps.go, ih]

lemma reindexSteps_titles (l : List EngineSpec.Step) :
    (reindexSteps l).map (fun s => s.title) = l.map (fun s => s.title) :=
  reindexSteps_go_titles 0 l

lemma getD_zero_eq_headD {l : List Token} {d : Token} : l.getD 0 d = l.headD d := by
  cases l <;> rfl

/-- With a statement-head violation (first token not `SELECT`),
`Parser.Parse` fails and the violation is recorded in the parser's error
list. -/
lemma Parse_head_not_select (tokens : List Token) (hne : tokens ≠ [])
    (h : (tokens.headD default).type ≠ TokenType.tSelect) :
    ∃ msg pst, Parse tokens = (.error msg, pst) ∧ pst.errors ≠ [] := by
  have hlen : ¬ tokens.length = 0 := by simpa using hne
  set st0 : PState :=
    { tokens := tokens, pos := 0, nodes := [], nodeSeq := 0, errors := [] } with hst0
  have hcur : pCurrent st0 = tokens.headD default := by
    rw [pCurrent, hst0]
    exact getD_zero_eq_headD
  obtain ⟨n, hn⟩ : ∃ n, 16 * (tokens.length + 1) = n + 1 :=
    ⟨16 * (tokens.length + 1) - 1, by omega⟩
  have hstate : parseStatement (16 * (tokens.length + 1)) st0 =
      (none, addErr st0 ("unexpected token: " ++ typeName (pCurrent st0).type)) := by
    rw [hn]
    cases htt : (pCurrent st0).type
    case tSelect => exact absurd (hcur ▸ htt) h
    all_goals simp [parseStatement, htt]
  refine ⟨"parse errors: [" ++
      joinStrings (addErr st0 ("unexpected token: " ++ typeName (pCurrent st0).type)).errors
      ++ "]",
    addErr st0 ("unexpected token: " ++ typeName (pCurrent st0).type), ?_, ?_⟩
  · simp only [Parse, if_neg hlen, ← hst0, hstate]
    rw [if_pos (by simp [addErr, hst0])]
  · simp [addErr, hst0]

/--
C5 (amended).  A syntax violation at the statement head — the token
stream does not start with `SELECT` — aborts parsing (no AST root is
produced), is recorded in the parser's error list, and the produced
trace ends with a `Parse Error` step; the violation is never raised as
an error to the caller of the trace-producing operation (`Initialize`
always returns nil).  (Violations later in the stream are recorded but
do not abort parsing and do not yield an error step — see the
counterexample.)
-/
theorem head_violation_amended (q : String)
    (h : ((simTokens q).headD default).type ≠ TokenType.tSelect) :
    (prepareParse q).parsePhase = "error" ∧
    (prepareParse q).astRoot = none ∧
    (prepareParse q).parseErrors ≠ [] ∧
    ((prepareParse q).steps.getLast?).map (fun s => s.title) = some "Parse Error" ∧
    (initSim q).2 = none := by
  have hne : simTokens q ≠ [] := by simp [simTokens]
  obtain ⟨msg, pst, hP, herr⟩ := Parse_head_not_select (simTokens q) hne h
  have hprep : prepareParse q =
      { query := q, tokens := simTokens q, astNodes := [], astRoot := none,
        steps := reindexSteps (stepsPrefix q ++ [mkStep "Parse Error" msg []]),
        parsePhase := "error", parseErrors := pst.errors } := by
    simp only [prepareParse, hP]
  rw [hprep]
  refine ⟨rfl, rfl, herr, ?_, rfl⟩
  rw [show ∀ st : SimState, st.steps = st.steps from fun _ => rfl]
  simp only []
  rw [← getLast?_map (fun s => s.title) (reindexSteps (stepsPrefix q ++ [mkStep "Parse Error" msg []]))]
  rw [reindexSteps_titles, List.map_append]
  simp [mkStep]

/-- Witness for `head_violation_amended` at the query `FROM users`. -/
theorem head_violation_amended_witness :
    (((simTokens "FROM users").headD default).type ≠ TokenType.tSelect) ∧
    ((prepareParse "FROM users").parsePhase = "error" ∧
      (prepareParse "FROM users").astRoot = none ∧
      (prepareParse "FROM users").parseErrors ≠ [] ∧
      ((prepareParse "FROM users").steps.getLast?).map (fun s => s.title) =
        some "Parse Error" ∧
      (initSim "FROM users").2 = none) :=
  ⟨by decide, head_violation_amended "FROM users" (by decide)⟩

/--
C5 (counterexample to the claim as stated).  The query
`SELECT * FROM WHERE` contains syntax violations (the parser records
"expected IDENTIFIER but got WHERE" and "unexpected token in expression:
EOF"), yet parsing does not abort at the violation and the produced
trace ends with the normal `Parsing Complete` step, not an error step:
`Parse` only fails when no statement node at all is produced, and a
`SELECT`-headed query always produces one.
-/
theorem mid_parse_violation_counterexample :
    (prepareParse "SELECT * FROM WHERE").parseErrors =
      ["expected IDENTIFIER but got WHERE", "unexpected token in expression: EOF"] ∧
    ((prepareParse "SELECT * FROM WHERE").steps.getLast?).map (fun s => s.title) =
      some "Parsing Complete" ∧
    some "Parsing Complete" ≠ some "Parse Error" ∧
    (prepareParse "SELECT * FROM WHERE").parsePhase = "complete" ∧
    (initSim "SELECT * FROM WHERE").2 = none := by decide

end ParserSpec

